import Mathlib

/-!
Verification development for the mind-map editor
(src/mindmap-website-v4.1/mindmap-website/src/{App.jsx, MindMap.jsx, utils.js}).

The tree data model, the edit/undo-redo state machine of App.jsx and the
tree helpers of utils.js are embedded as executable Lean definitions; the
radial-layout / connector geometry of MindMap.jsx is embedded over ℝ
(JavaScript numbers are modelled as real numbers).  Node ids produced by
`nanoid` are modelled by an abstract generator `gen : Nat → String`
together with a counter that is threaded through id assignment, or, for a
single fresh node, by an explicit id parameter.
-/

namespace Mindmap

/-- The node record of the data model: `{ id, name, children, collapsed, px, py }`.
`px`/`py` are the optional manual-position override (absent = `undefined`). -/
inductive Node where
  | mk (id : String) (name : String) (children : List Node)
       (collapsed : Bool) (px : Option Int) (py : Option Int)

def Node.id : Node → String
  | .mk i _ _ _ _ _ => i

def Node.name : Node → String
  | .mk _ nm _ _ _ _ => nm

def Node.children : Node → List Node
  | .mk _ _ cs _ _ _ => cs

def Node.collapsed : Node → Bool
  | .mk _ _ _ col _ _ => col

def Node.px : Node → Option Int
  | .mk _ _ _ _ px _ => px

def Node.py : Node → Option Int
  | .mk _ _ _ _ _ py => py

mutual
def nodeDecEq : (a b : Node) → Decidable (a = b)
  | .mk i1 n1 c1 col1 px1 py1, .mk i2 n2 c2 col2 px2 py2 =>
    match decEq i1 i2, decEq n1 n2, nodeListDecEq c1 c2, decEq col1 col2, decEq px1 px2, decEq py1 py2 with
    | isTrue h1, isTrue h2, isTrue h3, isTrue h4, isTrue h5, isTrue h6 =>
        isTrue (by subst h1 h2 h3 h4 h5 h6; rfl)
    | isFalse h, _, _, _, _, _ => isFalse (by intro e; cases e; exact h rfl)
    | _, isFalse h, _, _, _, _ => isFalse (by intro e; cases e; exact h rfl)
    | _, _, isFalse h, _, _, _ => isFalse (by intro e; cases e; exact h rfl)
    | _, _, _, isFalse h, _, _ => isFalse (by intro e; cases e; exact h rfl)
    | _, _, _, _, isFalse h, _ => isFalse (by intro e; cases e; exact h rfl)
    | _, _, _, _, _, isFalse h => isFalse (by intro e; cases e; exact h rfl)
def nodeListDecEq : (a b : List Node) → Decidable (a = b)
  | [], [] => isTrue rfl
  | [], _ :: _ => isFalse (by intro e; cases e)
  | _ :: _, [] => isFalse (by intro e; cases e)
  | a :: as, b :: bs =>
    match nodeDecEq a b, nodeListDecEq as bs with
    | isTrue h1, isTrue h2 => isTrue (by rw [h1, h2])
    | isFalse h, _ => isFalse (by intro e; cases e; exact h rfl)
    | _, isFalse h => isFalse (by intro e; cases e; exact h rfl)
end

instance : DecidableEq Node := nodeDecEq

/-- Strong induction over the nested tree type: to prove `P n` it is
enough to prove it for a node assuming it for every child. -/
theorem nodeStrongInd (P : Node → Prop)
    (h : ∀ i nm cs col px py, (∀ c, c ∈ cs → P c) → P (.mk i nm cs col px py)) :
    ∀ n, P n
  | .mk i nm cs col px py =>
    h i nm cs col px py (fun c hc => nodeStrongInd P h c)
termination_by n => sizeOf n
decreasing_by
  have h1 := List.sizeOf_lt_of_mem hc
  simp only [Node.mk.sizeOf_spec]
  omega

mutual
/-- Membership test for an id in a subtree.  This is both the recursion of
`findNode` (utils.js) collapsed to a Boolean and, verbatim, the local
`isDesc` of `reparent` (App.jsx): `n.id === id || (n.children || []).some(c => isDesc(c, id))`. -/
def hasId : Node → String → Bool
  | .mk i _ cs _ _ _, x => i == x || hasIdList cs x

/-- `children.some(c => isDesc(c, id))`. -/
def hasIdList : List Node → String → Bool
  | [], _ => false
  | c :: cs, x => hasId c x || hasIdList cs x
end

mutual
/-- utils.js `findNode(root, id)`: return the root if its id matches, else
the first match found while walking the children in order. -/
def findNode : Node → String → Option Node
  | .mk i nm cs col px py, x =>
    if i = x then some (.mk i nm cs col px py) else findNodeList cs x
/-- The `for (const c of root.children)` loop of `findNode`. -/
def findNodeList : List Node → String → Option Node
  | [], _ => none
  | c :: cs, x =>
    match findNode c x with
    | some found => some found
    | none => findNodeList cs x
end

mutual
/-- List of every id in the subtree, root first (preorder). -/
def allIds : Node → List String
  | .mk i _ cs _ _ _ => i :: allIdsList cs

def allIdsList : List Node → List String
  | [] => []
  | c :: cs => allIds c ++ allIdsList cs
end

/-- The data-model invariant: every id in the tree occurs exactly once. -/
def UniqueIds (n : Node) : Prop := (allIds n).Nodup

mutual
/-- App.jsx `deleteNode`'s recursive `remove`:
`children = (n.children || []).filter(c => c.id !== id).map(remove); return { ...n, children }`.
The filter-then-map over the children is realised by the structural loop
`removeChildren` (see `removeChildren_eq`). -/
def removeNode (x : String) : Node → Node
  | .mk i nm cs col px py => .mk i nm (removeChildren x cs) col px py

/-- Drop every child whose id is `x` and recurse into the kept ones:
pointwise equal to `(cs.filter (·.id ≠ x)).map (removeNode x)`. -/
def removeChildren (x : String) : List Node → List Node
  | [] => []
  | c :: cs =>
    if c.id = x then removeChildren x cs
    else removeNode x c :: removeChildren x cs
end

mutual
/-- App.jsx's reattach step of `reparent` (and, with a fresh leaf, `addChild`):
`mapTree(t, n => n.id === x ? { ...n, children: (n.children || []).concat(m) } : n)`.
`mapTree` (utils.js) applies the function at every node and recurses into the
result's children, so it would also walk into the appended subtree `m`; both
call sites only reach this with `x` not occurring in `m` (`reparent` checks
`isDesc` first, `addChild` appends a fresh-id leaf), where that walk is the
identity, so this definition does not recurse into `m`. -/
def attachTree (x : String) (m : Node) : Node → Node
  | .mk i nm cs col px py =>
    if i = x then .mk i nm (attachChildren x m cs ++ [m]) col px py
    else .mk i nm (attachChildren x m cs) col px py

def attachChildren (x : String) (m : Node) : List Node → List Node
  | [] => []
  | c :: cs => attachTree x m c :: attachChildren x m cs
end

mutual
/-- App.jsx `toggleCollapse`'s tree update:
`mapTree(t, n => n.id === id ? { ...n, collapsed: !n.collapsed } : n)`. -/
def toggleTree (x : String) : Node → Node
  | .mk i nm cs col px py =>
    .mk i nm (toggleChildren x cs) (if i = x then !col else col) px py

def toggleChildren (x : String) : List Node → List Node
  | [] => []
  | c :: cs => toggleTree x c :: toggleChildren x cs
end

mutual
/-- App.jsx `renameNode`'s tree update:
`mapTree(t, n => n.id === id ? { ...n, name: newName } : n)` where `newName`
is the already-normalised name (see `normName`). -/
def renameTree (x : String) (newName : String) : Node → Node
  | .mk i nm cs col px py =>
    .mk i (if i = x then newName else nm) (renameChildren x newName cs) col px py

def renameChildren (x : String) (newName : String) : List Node → List Node
  | [] => []
  | c :: cs => renameTree x newName c :: renameChildren x newName cs
end

mutual
/-- App.jsx `moveNode`'s tree update:
`mapTree(t, n => n.id === id ? { ...n, px: x, py: y } : n)`. -/
def moveTree (x : String) (mx my : Int) : Node → Node
  | .mk i nm cs col px py =>
    if i = x then .mk i nm (moveChildren x mx my cs) col (some mx) (some my)
    else .mk i nm (moveChildren x mx my cs) col px py

def moveChildren (x : String) (mx my : Int) : List Node → List Node
  | [] => []
  | c :: cs => moveTree x mx my c :: moveChildren x mx my cs
end

/-- App.jsx `renameNode`'s name normalisation:
`(name || 'Node').trim() || 'Node'` (a falsy — empty — name falls back to
the literal `"Node"`, before and after trimming). -/
def normName (name : String) : String :=
  let t := (if name = "" then "Node" else name).trim
  if t = "" then "Node" else t

/-- Input JSON value of the shape the importer accepts:
`{ id?, name?, children?, collapsed?, px?, py? }`.  `none` models an absent
(`undefined`) field; a missing `children` array is modelled as `[]`
(the source always guards with `n.children || []`). -/
inductive INode where
  | mk (id : Option String) (name : Option String) (children : List INode)
       (collapsed : Bool) (px : Option Int) (py : Option Int)

def INode.id : INode → Option String
  | .mk i _ _ _ _ _ => i

def INode.name : INode → Option String
  | .mk _ nm _ _ _ _ => nm

def INode.children : INode → List INode
  | .mk _ _ cs _ _ _ => cs

mutual
/-- utils.js `assignIds(node)`:
`id = node.id || nanoid(8); named = node.name ?? 'Node';
children = (node.children || []).map(assignIds); return { ...node, id, name: named, children }`.
The nanoid draws are modelled by `gen` applied to a threaded counter; a
present-but-empty id string is falsy in JavaScript and is regenerated. -/
def assignIds (gen : Nat → String) : INode → Nat → Node × Nat
  | .mk i0 nm0 cs0 col px py, k =>
    let ik : String × Nat :=
      match i0 with
      | some i => if i = "" then (gen k, k + 1) else (i, k)
      | none => (gen k, k + 1)
    let named := nm0.getD "Node"
    let csk := assignIdsList gen cs0 ik.2
    (.mk ik.1 named csk.1 col px py, csk.2)

def assignIdsList (gen : Nat → String) : List INode → Nat → List Node × Nat
  | [], k => ([], k)
  | c :: cs, k =>
    let ck := assignIds gen c k
    let csk := assignIdsList gen cs ck.2
    (ck.1 :: csk.1, csk.2)
end

mutual
/-- App.jsx `importJSON`'s recursive `addIds`:
`base = assignIds({ name: n.name, children: n.children || [] });
if (n.px !== undefined && n.py !== undefined) { base.px = n.px; base.py = n.py }
base.children = (n.children || []).map(addIds); return base`.
Note the object handed to `assignIds` carries only `name` and `children`,
so the id is always freshly generated and the children assigned there are
recomputed (and their counter draws consumed) by the outer map. -/
def addIds (gen : Nat → String) : INode → Nat → Node × Nat
  | .mk _ nm0 cs0 _ px0 py0, k =>
    let bk := assignIds gen (.mk none nm0 cs0 false none none) k
    let pxpy : Option Int × Option Int :=
      match px0, py0 with
      | some px, some py => (some px, some py)
      | _, _ => (none, none)
    let csk := addIdsList gen cs0 bk.2
    match bk.1 with
    | .mk i nm _ col _ _ => (.mk i nm csk.1 col pxpy.1 pxpy.2, csk.2)

def addIdsList (gen : Nat → String) : List INode → Nat → List Node × Nat
  | [], k => ([], k)
  | c :: cs, k =>
    let ck := addIds gen c k
    let csk := addIdsList gen cs ck.2
    (ck.1 :: csk.1, csk.2)
end

mutual
/-- App.jsx `exportJSON`'s `strip`:
`{ name: n.name, ...(n.px !== undefined && n.py !== undefined ? { px: n.px, py: n.py } : {}), children: (n.children || []).map(strip) }`
— ids and collapse flags are not emitted, px/py only when both are present. -/
def exportStrip : Node → INode
  | .mk _ nm cs _ px py =>
    let pxpy : Option Int × Option Int :=
      match px, py with
      | some a, some b => (some a, some b)
      | _, _ => (none, none)
    .mk none (some nm) (exportStripList cs) false pxpy.1 pxpy.2

def exportStripList : List Node → List INode
  | [] => []
  | c :: cs => exportStrip c :: exportStripList cs
end

mutual
/-- The `moved` cell of `reparent`'s removal pass: the child node (with its
whole subtree) whose id matches `childId`.  The source records it by mutation
while filtering every children list; under the unique-id invariant there is
at most one match, and this takes the first in depth-first order (for a
non-root id this agrees with `findNode`, see `grabNode_eq_findNode`). -/
def grabNode (x : String) : Node → Option Node
  | .mk _ _ cs _ _ _ => grabList x cs

def grabList (x : String) : List Node → Option Node
  | [] => none
  | c :: cs =>
    if c.id = x then some c
    else
      match grabNode x c with
      | some m => some m
      | none => grabList x cs
end

/-- One undo/redo snapshot.  The source stores `JSON.stringify({ tree, selectedId })`
and `restore` parses it back; serialisation round-trips, so a snapshot is
modelled as the pair itself. -/
abbrev Snapshot := Node × Option String

/-- The state owned by `App`: the tree, the selection (`null` modelled as
`none`), the two history stacks (top at the end, as in the source arrays)
and the captured pre-drag snapshot. -/
structure EditorState where
  tree : Node
  selectedId : Option String
  undoStack : List Snapshot
  redoStack : List Snapshot
  preDragSnapshot : Option Snapshot
deriving DecidableEq

def snapshot (s : EditorState) : Snapshot := (s.tree, s.selectedId)

/-- The capacity-10 push used by `pushUndo` and `moveCommit`:
`next = [...prev, snap]; return next.length > 10 ? next.slice(next.length - 10) : next`. -/
def pushTrim (st : List Snapshot) (snap : Snapshot) : List Snapshot :=
  let next := st ++ [snap]
  if next.length > 10 then next.drop (next.length - 10) else next

/-- App.jsx `pushUndo`: push the current snapshot (trimmed to 10) and clear
the redo stack. -/
def pushUndo (s : EditorState) : EditorState :=
  { s with undoStack := pushTrim s.undoStack (snapshot s), redoStack := [] }

/-- The fresh node `assignIds({ name: 'New Node', children: [] })` built by
`addChild`, with the nanoid draw modelled as the explicit `newId`. -/
def newChildNode (newId : String) : Node := .mk newId "New Node" [] false none none

/-- App.jsx `addChild(id)`. -/
def addChildOp (newId : String) (pid : String) (s : EditorState) : EditorState :=
  let s1 := if s.preDragSnapshot = none then pushUndo s else s
  { s1 with tree := attachTree pid (newChildNode newId) s.tree, selectedId := some pid }

/-- App.jsx `deleteNode(id)`. -/
def deleteNodeOp (x : String) (s : EditorState) : EditorState :=
  if s.tree.id = x then s
  else
    let s1 := if s.preDragSnapshot = none then pushUndo s else s
    let newTree := removeNode x s.tree
    { s1 with tree := newTree, selectedId := some newTree.id }

/-- App.jsx `renameNode(id, name)`. -/
def renameNodeOp (x : String) (name : String) (s : EditorState) : EditorState :=
  let s1 := if s.preDragSnapshot = none then pushUndo s else s
  { s1 with tree := renameTree x (normName name) s.tree }

/-- App.jsx `toggleCollapse(id)`. -/
def toggleCollapseOp (x : String) (s : EditorState) : EditorState :=
  let s1 := if s.preDragSnapshot = none then pushUndo s else s
  { s1 with tree := toggleTree x s.tree }

/-- App.jsx `reparent(childId, newParentId)`.  `none` models the uncaught
`TypeError`: when `findNode` returns `null` the source goes on to evaluate
`isDesc(childNode, newParentId)`, which reads `.id` of `null` and throws. -/
def reparentOp (childId newParentId : String) (s : EditorState) : Option EditorState :=
  if childId = s.tree.id then some s
  else if childId = newParentId then some s
  else
    match findNode s.tree childId with
    | none => none
    | some childNode =>
      if hasId childNode newParentId then some s
      else
        let s1 := if s.preDragSnapshot = none then pushUndo s else s
        let without := removeNode childId s.tree
        match grabNode childId s.tree with
        | none => some s1
        | some moved =>
          some { s1 with tree := attachTree newParentId moved without,
                         selectedId := some childId }

/-- App.jsx `moveNode(id, x, y)`: capture the pre-drag snapshot on the first
call, then only update the manual position. -/
def moveNodeOp (x : String) (mx my : Int) (s : EditorState) : EditorState :=
  let s1 := if s.preDragSnapshot = none
    then { s with preDragSnapshot := some (snapshot s) } else s
  { s1 with tree := moveTree x mx my s.tree }

/-- App.jsx `moveCommit()`: push the captured pre-drag snapshot once. -/
def moveCommitOp (s : EditorState) : EditorState :=
  match s.preDragSnapshot with
  | none => s
  | some snap =>
    { s with undoStack := pushTrim s.undoStack snap, redoStack := [],
             preDragSnapshot := none }

/-- App.jsx `undo()`. -/
def undoOp (s : EditorState) : EditorState :=
  match s.undoStack.getLast? with
  | none => s
  | some last =>
    { tree := last.1, selectedId := last.2,
      undoStack := s.undoStack.dropLast,
      redoStack := s.redoStack ++ [snapshot s],
      preDragSnapshot := s.preDragSnapshot }

/-- App.jsx `redo()`. -/
def redoOp (s : EditorState) : EditorState :=
  match s.redoStack.getLast? with
  | none => s
  | some last =>
    { tree := last.1, selectedId := last.2,
      undoStack := s.undoStack ++ [snapshot s],
      redoStack := s.redoStack.dropLast,
      preDragSnapshot := s.preDragSnapshot }

/-- App.jsx `importJSON`, successful-parse branch: assign fresh ids,
select the new root, clear both history stacks. -/
def importOp (gen : Nat → String) (k : Nat) (json : INode) (s : EditorState) :
    EditorState × Nat :=
  let tk := addIds gen json k
  ({ tree := tk.1, selectedId := some tk.1.id, undoStack := [], redoStack := [],
     preDragSnapshot := s.preDragSnapshot }, tk.2)

/-- App.jsx `reset`. -/
def resetOp (gen : Nat → String) (k : Nat) (s : EditorState) : EditorState × Nat :=
  let tk := assignIds gen (.mk none (some "Central Topic") [] false none none) k
  ({ tree := tk.1, selectedId := none, undoStack := [], redoStack := [],
     preDragSnapshot := s.preDragSnapshot }, tk.2)

/-- App.jsx's selected-exists effect, run after every state change:
`if (!findNode(tree, selectedId)) setSelectedId(tree.id)`. -/
def normalizeSel (s : EditorState) : EditorState :=
  let found : Option Node :=
    match s.selectedId with
    | some x => findNode s.tree x
    | none => none
  if found = none then { s with selectedId := some s.tree.id } else s

/-- One user edit, as the claims enumerate them.  The nanoid of `addChild`
is the explicit `newId`; a completed drag is a list of `moveNode` calls
followed by one `moveCommit`. -/
inductive Edit where
  | addChild (newId pid : String)
  | deleteNode (id : String)
  | renameNode (id name : String)
  | toggleCollapse (id : String)
  | reparent (childId newParentId : String)
  | drag (moves : List (String × Int × Int))

def applyMoves (s : EditorState) (ms : List (String × Int × Int)) : EditorState :=
  ms.foldl (fun t m => moveNodeOp m.1 m.2.1 m.2.2 t) s

/-- Apply one edit; `none` is `reparent`'s uncaught `TypeError`. -/
def applyEdit (s : EditorState) : Edit → Option EditorState
  | .addChild newId pid => some (addChildOp newId pid s)
  | .deleteNode x => some (deleteNodeOp x s)
  | .renameNode x nm => some (renameNodeOp x nm s)
  | .toggleCollapse x => some (toggleCollapseOp x s)
  | .reparent c p => reparentOp c p s
  | .drag ms => some (moveCommitOp (applyMoves s ms))

def applyEdits (s : EditorState) : List Edit → Option EditorState
  | [] => some s
  | e :: es =>
    match applyEdit s e with
    | none => none
    | some s1 => applyEdits s1 es

/-- An edit is accepted when it completes and is not discarded by one of the
source's early returns; starting from a no-drag state, an accepted edit
pushes exactly one history entry. -/
def accepted (s : EditorState) : Edit → Bool
  | .addChild _ _ => true
  | .deleteNode x => !(s.tree.id == x)
  | .renameNode _ _ => true
  | .toggleCollapse _ => true
  | .reparent c p =>
    !(c == s.tree.id) && !(c == p) &&
      (match findNode s.tree c with
       | none => false
       | some cn => !hasId cn p)
  | .drag ms => !ms.isEmpty

def acceptedSeq (s : EditorState) : List Edit → Bool
  | [] => true
  | e :: es =>
    accepted s e &&
      (match applyEdit s e with
       | none => false
       | some s1 => acceptedSeq s1 es)

def undoN : Nat → EditorState → EditorState
  | 0, s => s
  | k + 1, s => undoN k (undoOp s)

def redoN : Nat → EditorState → EditorState
  | 0, s => s
  | k + 1, s => redoN k (redoOp s)

/-! Radial layout and connector geometry (MindMap.jsx), over ℝ. -/

/-- MindMap.jsx: `const radius = Math.max(260, Math.min(size.w, size.h) * 0.42)`. -/
noncomputable def radiusScale (w h : ℝ) : ℝ := max 260 (min w h * 0.42)

/-- What a laid-out node carries into the position computation: the optional
manual override `px`/`py` of its data, and the polar angle (`d.x`) and radius
(`d.y`) produced by the `d3.tree` library call, taken here as inputs. -/
structure LayoutIn where
  px : Option ℝ
  py : Option ℝ
  angle : ℝ
  r : ℝ

/-- `const autoX = d.y * Math.cos(d.x - Math.PI / 2)`. -/
noncomputable def autoX (d : LayoutIn) : ℝ := d.r * Real.cos (d.angle - Real.pi / 2)

/-- `const autoY = d.y * Math.sin(d.x - Math.PI / 2)`. -/
noncomputable def autoY (d : LayoutIn) : ℝ := d.r * Real.sin (d.angle - Real.pi / 2)

/-- `const px = (d.data.px ?? autoX)` — the resolved render x. -/
noncomputable def resolvedX (d : LayoutIn) : ℝ := d.px.getD (autoX d)

/-- `const py = (d.data.py ?? autoY)` — the resolved render y. -/
noncomputable def resolvedY (d : LayoutIn) : ℝ := d.py.getD (autoY d)

/-- A resolved node position, as used by the link computation. -/
structure Pt where
  x : ℝ
  y : ℝ

/-- `const dist = Math.hypot(dx, dy)`. -/
noncomputable def linkDist (s t : Pt) : ℝ :=
  Real.sqrt ((t.x - s.x) ^ 2 + (t.y - s.y) ^ 2)

/-- The divisor `(dist || 1)` of the normalisation: the JavaScript falsy test
replaces a zero distance by 1 and keeps any non-zero distance. -/
noncomputable def linkDenom (s t : Pt) : ℝ :=
  if linkDist s t = 0 then 1 else linkDist s t

/-- `const nx = dx / (dist || 1)`. -/
noncomputable def linkNX (s t : Pt) : ℝ := (t.x - s.x) / linkDenom s t

/-- `const ny = dy / (dist || 1)`. -/
noncomputable def linkNY (s t : Pt) : ℝ := (t.y - s.y) / linkDenom s t

/-- `const bend = Math.min(80, Math.max(20, dist * 0.2))`. -/
noncomputable def linkBend (s t : Pt) : ℝ := min 80 (max 20 (linkDist s t * 0.2))

/-- `const width = Math.max(1.5, 4 - depth * 0.4)`. -/
noncomputable def linkWidth (depth : ℕ) : ℝ := max 1.5 (4 - depth * 0.4)

/-- Modelled from the spec: the claim's reading that the direction vector is
normalised "using a distance floor of 1", i.e. divided by `max(distance, 1)`;
to be compared with the source's `linkNX`. -/
noncomputable def specFloorNX (s t : Pt) : ℝ := (t.x - s.x) / max (linkDist s t) 1

/-! Specification-side characterisations used to state the claims. -/

mutual
/-- `SameShape a b`: b carries the same name as a at every node, the same
children structure and order, and wherever a has both `px` and `py`, b has
the same values. -/
inductive SameShape : Node → Node → Prop
  | mk : ∀ i1 nm cs1 col1 px1 py1 i2 col2 px2 py2,
      (∀ a b2, px1 = some a → py1 = some b2 → px2 = some a ∧ py2 = some b2) →
      ∀ cs2, SameShapeList cs1 cs2 →
      SameShape (.mk i1 nm cs1 col1 px1 py1) (.mk i2 nm cs2 col2 px2 py2)

inductive SameShapeList : List Node → List Node → Prop
  | nil : SameShapeList [] []
  | cons : ∀ c1 c2 cs1 cs2, SameShape c1 c2 → SameShapeList cs1 cs2 →
      SameShapeList (c1 :: cs1) (c2 :: cs2)
end

/-- `RemovedSub x b t u`: u is t with exactly one child subtree — the node b,
whose root id is x — removed from its parent's children list; every other
node, every field, and the order of all remaining children are untouched. -/
inductive RemovedSub (x : String) (b : Node) : Node → Node → Prop
  | here : ∀ i nm col px py cs1 cs2, b.id = x →
      RemovedSub x b (.mk i nm (cs1 ++ b :: cs2) col px py)
                     (.mk i nm (cs1 ++ cs2) col px py)
  | deeper : ∀ i nm col px py cs1 c c2 cs2, RemovedSub x b c c2 →
      RemovedSub x b (.mk i nm (cs1 ++ c :: cs2) col px py)
                     (.mk i nm (cs1 ++ c2 :: cs2) col px py)

/-- `AppendedAt x m t u`: u is t with m appended as the last child of one
node whose id is x; everything else is untouched. -/
inductive AppendedAt (x : String) (m : Node) : Node → Node → Prop
  | here : ∀ nm cs col px py,
      AppendedAt x m (.mk x nm cs col px py) (.mk x nm (cs ++ [m]) col px py)
  | deeper : ∀ i nm col px py cs1 c c2 cs2, AppendedAt x m c c2 →
      AppendedAt x m (.mk i nm (cs1 ++ c :: cs2) col px py)
                     (.mk i nm (cs1 ++ c2 :: cs2) col px py)

/-! Basic lemmas about the tree functions. -/

theorem hasId_mk_false {i nm cs col px py x} :
    hasId (.mk i nm cs col px py) x = false ↔ (i ≠ x ∧ hasIdList cs x = false) := by
  simp [hasId]

theorem hasIdList_cons_false {c cs x} :
    hasIdList (c :: cs) x = false ↔ (hasId c x = false ∧ hasIdList cs x = false) := by
  simp [hasIdList]

theorem hasIdList_false_of_mem {cs x} (h : hasIdList cs x = false) :
    ∀ c, c ∈ cs → hasId c x = false := by
  induction cs with
  | nil => intro c hc; cases hc
  | cons d ds ih =>
    rw [hasIdList_cons_false] at h
    intro c hc
    rcases List.mem_cons.mp hc with rfl | hc
    · exact h.1
    · exact ih h.2 c hc

theorem id_ne_of_hasId_false {n : Node} {x : String} (h : hasId n x = false) :
    n.id ≠ x := by
  cases n with
  | mk i nm cs col px py => exact (hasId_mk_false.mp h).1

theorem hasIdList_false_children {n : Node} {x : String} (h : hasId n x = false) :
    hasIdList n.children x = false := by
  cases n with
  | mk i nm cs col px py => exact (hasId_mk_false.mp h).2

theorem removeNode_of_hasId_false :
    ∀ n : Node, ∀ x, hasId n x = false → removeNode x n = n := by
  intro n
  induction n using nodeStrongInd with
  | h i nm cs col px py ih =>
    intro x h
    rw [hasId_mk_false] at h
    have hl : ∀ ds, (∀ c, c ∈ ds → hasId c x = false) →
        (∀ c, c ∈ ds → removeNode x c = c) → removeChildren x ds = ds := by
      intro ds
      induction ds with
      | nil => intro _ _; rfl
      | cons d ds ihd =>
        intro hall hrec
        have hd := hall d (List.mem_cons_self d ds)
        rw [removeChildren, if_neg (id_ne_of_hasId_false hd),
          hrec d (List.mem_cons_self d ds),
          ihd (fun c hc => hall c (List.mem_cons.mpr (Or.inr hc)))
            (fun c hc => hrec c (List.mem_cons.mpr (Or.inr hc)))]
    rw [removeNode]
    rw [hl cs (hasIdList_false_of_mem h.2) (fun c hc => ih c hc x (hasIdList_false_of_mem h.2 c hc))]

theorem attachChildren_eq (x : String) (m : Node) :
    ∀ cs, attachChildren x m cs = cs.map (attachTree x m) := by
  intro cs
  induction cs with
  | nil => rfl
  | cons c cs ih => rw [attachChildren, ih, List.map_cons]

theorem toggleChildren_eq (x : String) :
    ∀ cs, toggleChildren x cs = cs.map (toggleTree x) := by
  intro cs
  induction cs with
  | nil => rfl
  | cons c cs ih => rw [toggleChildren, ih, List.map_cons]

theorem renameChildren_eq (x nn : String) :
    ∀ cs, renameChildren x nn cs = cs.map (renameTree x nn) := by
  intro cs
  induction cs with
  | nil => rfl
  | cons c cs ih => rw [renameChildren, ih, List.map_cons]

theorem moveChildren_eq (x : String) (mx my : Int) :
    ∀ cs, moveChildren x mx my cs = cs.map (moveTree x mx my) := by
  intro cs
  induction cs with
  | nil => rfl
  | cons c cs ih => rw [moveChildren, ih, List.map_cons]

theorem map_id_of_mem {cs : List Node} {f : Node → Node}
    (h : ∀ c, c ∈ cs → f c = c) : cs.map f = cs := by
  induction cs with
  | nil => rfl
  | cons c cs ih =>
    rw [List.map_cons, h c (List.mem_cons_self c cs),
      ih (fun c hc => h c (List.mem_cons.mpr (Or.inr hc)))]

theorem attachTree_of_hasId_false {m : Node} :
    ∀ n : Node, ∀ x, hasId n x = false → attachTree x m n = n := by
  intro n
  induction n using nodeStrongInd with
  | h i nm cs col px py ih =>
    intro x h
    rw [hasId_mk_false] at h
    rw [attachTree, if_neg h.1, attachChildren_eq,
      map_id_of_mem (fun c hc => ih c hc x (hasIdList_false_of_mem h.2 c hc))]

theorem toggleTree_of_hasId_false :
    ∀ n : Node, ∀ x, hasId n x = false → toggleTree x n = n := by
  intro n
  induction n using nodeStrongInd with
  | h i nm cs col px py ih =>
    intro x h
    rw [hasId_mk_false] at h
    rw [toggleTree, if_neg h.1, toggleChildren_eq,
      map_id_of_mem (fun c hc => ih c hc x (hasIdList_false_of_mem h.2 c hc))]

theorem renameTree_of_hasId_false {nn : String} :
    ∀ n : Node, ∀ x, hasId n x = false → renameTree x nn n = n := by
  intro n
  induction n using nodeStrongInd with
  | h i nm cs col px py ih =>
    intro x h
    rw [hasId_mk_false] at h
    rw [renameTree, if_neg h.1, renameChildren_eq,
      map_id_of_mem (fun c hc => ih c hc x (hasIdList_false_of_mem h.2 c hc))]

theorem findNodeList_isSome_aux {x : String} :
    ∀ cs, (∀ c, c ∈ cs → (findNode c x).isSome = hasId c x) →
      (findNodeList cs x).isSome = hasIdList cs x := by
  intro cs
  induction cs with
  | nil => intro _; rfl
  | cons c cs ih =>
    intro hall
    have hc := hall c (List.mem_cons_self c cs)
    have ht := ih (fun d hd => hall d (List.mem_cons.mpr (Or.inr hd)))
    rw [findNodeList, hasIdList, ← hc, ← ht]
    cases findNode c x <;> simp

theorem findNode_isSome (x : String) : ∀ n, (findNode n x).isSome = hasId n x := by
  intro n
  induction n using nodeStrongInd with
  | h i nm cs col px py ih =>
    rw [findNode, hasId]
    by_cases hix : i = x
    · simp [hix]
    · simp [hix, findNodeList_isSome_aux cs (fun c hc => ih c hc)]

theorem findNode_eq_none_iff {n : Node} {x : String} :
    findNode n x = none ↔ hasId n x = false := by
  rw [← findNode_isSome x n]
  cases findNode n x <;> simp

theorem findNode_some_of_hasId {n : Node} {x : String} (h : hasId n x = true) :
    ∃ m, findNode n x = some m := by
  have := findNode_isSome x n
  rw [h] at this
  cases hf : findNode n x with
  | none => rw [hf] at this; cases this
  | some m => exact ⟨m, rfl⟩

theorem findNodeList_some_id_aux {x : String} :
    ∀ cs, (∀ c, c ∈ cs → ∀ m, findNode c x = some m → m.id = x) →
      ∀ m, findNodeList cs x = some m → m.id = x := by
  intro cs
  induction cs with
  | nil => intro _ m h; cases h
  | cons c cs ih =>
    intro hall m h
    rw [findNodeList] at h
    cases hfc : findNode c x with
    | some f => rw [hfc] at h; cases h; exact hall c (List.mem_cons_self c cs) _ hfc
    | none =>
      rw [hfc] at h
      exact ih (fun d hd => hall d (List.mem_cons.mpr (Or.inr hd))) m h

theorem findNode_some_id {x : String} :
    ∀ n, ∀ m, findNode n x = some m → m.id = x := by
  intro n
  induction n using nodeStrongInd with
  | h i nm cs col px py ih =>
    intro m h
    rw [findNode] at h
    by_cases hix : i = x
    · rw [if_pos hix] at h; cases h; exact hix
    · rw [if_neg hix] at h
      exact findNodeList_some_id_aux cs (fun c hc => ih c hc) m h

theorem allIdsList_append : ∀ cs1 cs2 : List Node,
    allIdsList (cs1 ++ cs2) = allIdsList cs1 ++ allIdsList cs2 := by
  intro cs1 cs2
  induction cs1 with
  | nil => rfl
  | cons c cs ih => rw [List.cons_append, allIdsList, allIdsList, ih, List.append_assoc]

theorem findNodeList_sub_aux {x : String} :
    ∀ cs, (∀ c, c ∈ cs → ∀ m, findNode c x = some m → ∀ y, y ∈ allIds m → y ∈ allIds c) →
      ∀ m, findNodeList cs x = some m → ∀ y, y ∈ allIds m → y ∈ allIdsList cs := by
  intro cs
  induction cs with
  | nil => intro _ m h; cases h
  | cons c cs ih =>
    intro hall m h y hy
    rw [findNodeList] at h
    rw [allIdsList, List.mem_append]
    cases hfc : findNode c x with
    | some f =>
      rw [hfc] at h; cases h
      exact Or.inl (hall c (List.mem_cons_self c cs) _ hfc y hy)
    | none =>
      rw [hfc] at h
      exact Or.inr (ih (fun d hd => hall d (List.mem_cons.mpr (Or.inr hd))) m h y hy)

theorem findNode_sub {x : String} :
    ∀ n, ∀ m, findNode n x = some m → ∀ y, y ∈ allIds m → y ∈ allIds n := by
  intro n
  induction n using nodeStrongInd with
  | h i nm cs col px py ih =>
    intro m h y hy
    rw [findNode] at h
    by_cases hix : i = x
    · rw [if_pos hix] at h; cases h; exact hy
    · rw [if_neg hix] at h
      rw [allIds, List.mem_cons]
      exact Or.inr (findNodeList_sub_aux cs (fun c hc => ih c hc) m h y hy)

theorem mem_allIdsList_aux {y : String} :
    ∀ cs : List Node, (∀ c, c ∈ cs → (y ∈ allIds c ↔ hasId c y = true)) →
      (y ∈ allIdsList cs ↔ hasIdList cs y = true) := by
  intro cs
  induction cs with
  | nil => intro _; simp [allIdsList, hasIdList]
  | cons c cs ih =>
    intro hall
    rw [allIdsList, hasIdList, List.mem_append,
      hall c (List.mem_cons_self c cs),
      ih (fun d hd => hall d (List.mem_cons.mpr (Or.inr hd)))]
    simp

theorem mem_allIds_iff {y : String} :
    ∀ n : Node, y ∈ allIds n ↔ hasId n y = true := by
  intro n
  induction n using nodeStrongInd with
  | h i nm cs col px py ih =>
    rw [allIds, hasId, List.mem_cons, mem_allIdsList_aux cs (fun c hc => ih c hc)]
    constructor
    · rintro (rfl | h2)
      · simp
      · simp [h2]
    · intro h2
      rcases Bool.or_eq_true_iff.mp h2 with h3 | h3
      · have h4 : i = y := by simpa using h3
        exact Or.inl h4.symm
      · exact Or.inr h3

theorem allIds_sub_of_mem {y : String} :
    ∀ cs : List Node, ∀ d, d ∈ cs → y ∈ allIds d → y ∈ allIdsList cs := by
  intro cs
  induction cs with
  | nil => intro d hd; cases hd
  | cons c cs ih =>
    intro d hd hy
    rw [allIdsList, List.mem_append]
    rcases List.mem_cons.mp hd with rfl | hd
    · exact Or.inl hy
    · exact Or.inr (ih d hd hy)

theorem uniq_parts {i nm : String} {cs : List Node} {col : Bool} {px py : Option Int}
    (h : UniqueIds (.mk i nm cs col px py)) :
    i ∉ allIdsList cs ∧ (allIdsList cs).Nodup := by
  rw [UniqueIds, allIds, List.nodup_cons] at h
  exact h

theorem uniq_of_mem : ∀ cs : List Node, (allIdsList cs).Nodup →
    ∀ c, c ∈ cs → UniqueIds c := by
  intro cs
  induction cs with
  | nil => intro _ c hc; cases hc
  | cons d ds ih =>
    intro h c hc
    rw [allIdsList] at h
    rcases List.mem_cons.mp hc with rfl | hc
    · exact h.of_append_left
    · exact ih h.of_append_right c hc

theorem uniq_child {n : Node} (h : UniqueIds n) :
    ∀ c, c ∈ n.children → UniqueIds c := by
  cases n with
  | mk i nm cs col px py =>
    exact fun c hc => uniq_of_mem cs (uniq_parts h).2 c hc

theorem nodup_split_not_mem {cs1 cs2 : List Node} {c : Node} {y : String}
    (h : (allIdsList (cs1 ++ c :: cs2)).Nodup) (hy : y ∈ allIds c) :
    (∀ d, d ∈ cs1 → y ∉ allIds d) ∧ (∀ d, d ∈ cs2 → y ∉ allIds d) := by
  rw [allIdsList_append] at h
  rw [List.nodup_append] at h
  obtain ⟨h1, h2, h3⟩ := h
  rw [allIdsList, List.nodup_append] at h2
  obtain ⟨h4, h5, h6⟩ := h2
  constructor
  · intro d hd hyd
    exact h3 (allIds_sub_of_mem cs1 d hd hyd) (by rw [allIdsList, List.mem_append]; exact Or.inl hy)
  · intro d hd hyd
    exact h6 hy (allIds_sub_of_mem cs2 d hd hyd)

theorem hasIdList_split {x : String} : ∀ cs, hasIdList cs x = true →
    ∃ cs1 c cs2, cs = cs1 ++ c :: cs2 ∧ hasId c x = true ∧
      ∀ d, d ∈ cs1 → hasId d x = false := by
  intro cs
  induction cs with
  | nil => intro h; cases h
  | cons c cs ih =>
    intro h
    cases hc : hasId c x with
    | true => exact ⟨[], c, cs, rfl, hc, fun d hd => absurd hd (List.not_mem_nil d)⟩
    | false =>
      rw [hasIdList, hc] at h
      simp only [Bool.false_or] at h
      obtain ⟨cs1, c2, cs2, rfl, h1, h2⟩ := ih h
      refine ⟨c :: cs1, c2, cs2, rfl, h1, fun d hd => ?_⟩
      rcases List.mem_cons.mp hd with rfl | hd
      · exact hc
      · exact h2 d hd

theorem findNodeList_split {x : String} : ∀ cs m, findNodeList cs x = some m →
    ∃ cs1 c cs2, cs = cs1 ++ c :: cs2 ∧ findNode c x = some m ∧
      ∀ d, d ∈ cs1 → findNode d x = none := by
  intro cs
  induction cs with
  | nil => intro m h; cases h
  | cons c cs ih =>
    intro m h
    rw [findNodeList] at h
    cases hfc : findNode c x with
    | some f =>
      rw [hfc] at h; cases h
      exact ⟨[], c, cs, rfl, hfc, fun d hd => absurd hd (List.not_mem_nil d)⟩
    | none =>
      rw [hfc] at h
      obtain ⟨cs1, c2, cs2, rfl, h1, h2⟩ := ih m h
      refine ⟨c :: cs1, c2, cs2, rfl, h1, fun d hd => ?_⟩
      rcases List.mem_cons.mp hd with rfl | hd
      · exact hfc
      · exact h2 d hd

theorem getLast?_concat_split {A : Type} {l : List A} {b : A} :
    l.getLast? = some b → ∃ l2, l = l2 ++ [b] := by
  induction l with
  | nil => intro h; cases h
  | cons a t ih =>
    intro h
    cases t with
    | nil =>
      rw [List.getLast?_singleton] at h
      cases h
      exact ⟨[], rfl⟩
    | cons c t2 =>
      rw [List.getLast?_cons_cons] at h
      obtain ⟨l2, hl⟩ := ih h
      exact ⟨a :: l2, by rw [List.cons_append, ← hl]⟩

theorem removeChildren_append (x : String) : ∀ cs1 cs2 : List Node,
    removeChildren x (cs1 ++ cs2) = removeChildren x cs1 ++ removeChildren x cs2 := by
  intro cs1 cs2
  induction cs1 with
  | nil => rfl
  | cons c cs ih =>
    rw [List.cons_append, removeChildren, removeChildren]
    by_cases hc : c.id = x
    · rw [if_pos hc, if_pos hc, ih]
    · rw [if_neg hc, if_neg hc, ih, List.cons_append]

theorem removeChildren_id {x : String} : ∀ cs : List Node,
    (∀ c, c ∈ cs → hasId c x = false) → removeChildren x cs = cs := by
  intro cs
  induction cs with
  | nil => intro _; rfl
  | cons c cs ih =>
    intro hall
    have hc := hall c (List.mem_cons_self c cs)
    rw [removeChildren, if_neg (id_ne_of_hasId_false hc),
      removeNode_of_hasId_false c x hc,
      ih (fun d hd => hall d (List.mem_cons.mpr (Or.inr hd)))]

theorem grabList_none_aux {x : String} : ∀ cs : List Node,
    (∀ c, c ∈ cs → grabNode x c = none) →
    (∀ c, c ∈ cs → hasId c x = false) → grabList x cs = none := by
  intro cs
  induction cs with
  | nil => intro _ _; rfl
  | cons c cs ih =>
    intro hg hall
    rw [grabList, if_neg (id_ne_of_hasId_false (hall c (List.mem_cons_self c cs))),
      hg c (List.mem_cons_self c cs)]
    exact ih (fun d hd => hg d (List.mem_cons.mpr (Or.inr hd)))
      (fun d hd => hall d (List.mem_cons.mpr (Or.inr hd)))

theorem grabNode_none_of_hasId_false :
    ∀ n : Node, ∀ x, hasId n x = false → grabNode x n = none := by
  intro n
  induction n using nodeStrongInd with
  | h i nm cs col px py ih =>
    intro x h
    rw [hasId_mk_false] at h
    rw [grabNode]
    exact grabList_none_aux cs (fun c hc => ih c hc x (hasIdList_false_of_mem h.2 c hc))
      (hasIdList_false_of_mem h.2)

theorem grabList_append_skip {x : String} {cs1 rest : List Node}
    (h : ∀ d, d ∈ cs1 → hasId d x = false) :
    grabList x (cs1 ++ rest) = grabList x rest := by
  induction cs1 with
  | nil => rfl
  | cons c cs ih =>
    rw [List.cons_append, grabList,
      if_neg (id_ne_of_hasId_false (h c (List.mem_cons_self c cs))),
      grabNode_none_of_hasId_false c x (h c (List.mem_cons_self c cs))]
    exact ih (fun d hd => h d (List.mem_cons.mpr (Or.inr hd)))

/-- Main removal theorem: on a unique-id tree containing a non-root node
with id `x`, the source's removal pass deletes exactly that node's subtree
(and nothing else), and its `moved` cell holds exactly that subtree. -/
theorem removeNode_removedSub {x : String} :
    ∀ n : Node, UniqueIds n → hasId n x = true → n.id ≠ x →
      ∃ b, grabNode x n = some b ∧ b.id = x ∧ RemovedSub x b n (removeNode x n) := by
  intro n
  induction n using nodeStrongInd with
  | h i nm cs col px py ih =>
    intro hu hh hroot
    have hix : i ≠ x := by simpa [Node.id] using hroot
    have hlist : hasIdList cs x = true := by
      rw [hasId] at hh
      rcases Bool.or_eq_true_iff.mp hh with h1 | h1
      · exact absurd (by simpa using h1) hix
      · exact h1
    obtain ⟨cs1, c, cs2, rfl, hc, hcs1⟩ := hasIdList_split cs hlist
    have hnodup := (uniq_parts hu).2
    have hdisj := nodup_split_not_mem hnodup (mem_allIds_iff c |>.mpr hc)
    have hcs2 : ∀ d, d ∈ cs2 → hasId d x = false := by
      intro d hd
      have := hdisj.2 d hd
      rw [mem_allIds_iff d] at this
      exact Bool.not_eq_true _ ▸ Bool.of_not_eq_true this
    by_cases hcid : c.id = x
    · refine ⟨c, ?_, hcid, ?_⟩
      · rw [grabNode, grabList_append_skip hcs1, grabList, if_pos hcid]
      · rw [removeNode, removeChildren_append, removeChildren_id cs1 hcs1,
          removeChildren, if_pos hcid, removeChildren_id cs2 hcs2]
        exact RemovedSub.here i nm col px py cs1 cs2 hcid
    · have huc : UniqueIds c :=
        uniq_of_mem _ hnodup c (List.mem_append.mpr (Or.inr (List.mem_cons_self c cs2)))
      obtain ⟨b, hg, hbid, hrs⟩ := ih c
        (List.mem_append.mpr (Or.inr (List.mem_cons_self c cs2))) huc hc hcid
      refine ⟨b, ?_, hbid, ?_⟩
      · rw [grabNode, grabList_append_skip hcs1, grabList, if_neg hcid, hg]
      · rw [removeNode, removeChildren_append, removeChildren_id cs1 hcs1,
          removeChildren, if_neg hcid, removeChildren_id cs2 hcs2]
        exact RemovedSub.deeper i nm col px py cs1 c (removeNode x c) cs2 hrs

theorem grabList_eq_aux {x : String} : ∀ cs : List Node,
    (∀ c, c ∈ cs → grabNode x c = findNodeList c.children x) →
    grabList x cs = findNodeList cs x := by
  intro cs
  induction cs with
  | nil => intro _; rfl
  | cons c cs ih =>
    intro hall
    have hc := hall c (List.mem_cons_self c cs)
    have ht := ih (fun d hd => hall d (List.mem_cons.mpr (Or.inr hd)))
    cases c with
    | mk i nm cs0 col px py =>
      simp only [Node.children] at hc
      rw [grabList, findNodeList, findNode]
      by_cases hix : i = x
      · rw [if_pos (show Node.id (.mk i nm cs0 col px py) = x from hix), if_pos hix]
      · rw [if_neg (show Node.id (.mk i nm cs0 col px py) ≠ x from hix), if_neg hix, hc]
        cases findNodeList cs0 x with
        | some f => rfl
        | none => exact ht

theorem grabNode_eq_findNodeList {x : String} :
    ∀ n : Node, grabNode x n = findNodeList n.children x := by
  intro n
  induction n using nodeStrongInd with
  | h i nm cs col px py ih =>
    rw [grabNode, Node.children]
    exact grabList_eq_aux cs (fun c hc => ih c hc)

theorem grabNode_eq_findNode {n : Node} {x : String} (h : n.id ≠ x) :
    grabNode x n = findNode n x := by
  cases n with
  | mk i nm cs col px py =>
    rw [grabNode_eq_findNodeList, findNode, if_neg (by simpa [Node.id] using h), Node.children]

theorem removedSub_sublist {x : String} {b t u : Node} (h : RemovedSub x b t u) :
    List.Sublist (allIds u) (allIds t) := by
  induction h with
  | here i nm col px py cs1 cs2 hb =>
    rw [allIds, allIds, allIdsList_append, allIdsList_append, allIdsList]
    exact List.Sublist.cons₂ i (List.Sublist.append_left
      (List.sublist_append_right _ _) _)
  | deeper i nm col px py cs1 c c2 cs2 hrec ih =>
    rw [allIds, allIds, allIdsList_append, allIdsList_append, allIdsList, allIdsList]
    exact List.Sublist.cons₂ i (List.Sublist.append_left
      (List.Sublist.append_right ih _) _)

theorem removedSub_uniq {x : String} {b t u : Node} (h : RemovedSub x b t u)
    (hu : UniqueIds t) : UniqueIds u :=
  List.Nodup.sublist (removedSub_sublist h) hu

theorem removedSub_mem {x : String} {b t u : Node} (h : RemovedSub x b t u) :
    ∀ y, y ∈ allIds t → y ∉ allIds b → y ∈ allIds u := by
  induction h with
  | here i nm col px py cs1 cs2 hb =>
    intro y hy hnb
    rw [allIds, allIdsList_append, allIdsList] at hy
    rw [allIds, allIdsList_append]
    rcases List.mem_cons.mp hy with rfl | hy
    · exact List.mem_cons_self _ _
    · rcases List.mem_append.mp hy with h1 | h1
      · exact List.mem_cons.mpr (Or.inr (List.mem_append.mpr (Or.inl h1)))
      · rcases List.mem_append.mp h1 with h2 | h2
        · exact absurd h2 hnb
        · exact List.mem_cons.mpr (Or.inr (List.mem_append.mpr (Or.inr h2)))
  | deeper i nm col px py cs1 c c2 cs2 hrec ih =>
    intro y hy hnb
    rw [allIds, allIdsList_append, allIdsList] at hy
    rw [allIds, allIdsList_append, allIdsList]
    rcases List.mem_cons.mp hy with rfl | hy
    · exact List.mem_cons_self _ _
    · rcases List.mem_append.mp hy with h1 | h1
      · exact List.mem_cons.mpr (Or.inr (List.mem_append.mpr (Or.inl h1)))
      · rcases List.mem_append.mp h1 with h2 | h2
        · exact List.mem_cons.mpr (Or.inr (List.mem_append.mpr (Or.inr
            (List.mem_append.mpr (Or.inl (ih y h2 hnb))))))
        · exact List.mem_cons.mpr (Or.inr (List.mem_append.mpr (Or.inr
            (List.mem_append.mpr (Or.inr h2)))))

/-- Main attach theorem: on a unique-id tree containing a node with id `x`,
the reattach step appends `m` as the last child of exactly that node and
touches nothing else. -/
theorem attachTree_appendedAt {x : String} {m : Node} :
    ∀ n : Node, UniqueIds n → hasId n x = true → AppendedAt x m n (attachTree x m n) := by
  intro n
  induction n using nodeStrongInd with
  | h i nm cs col px py ih =>
    intro hu hh
    by_cases hix : i = x
    · subst hix
      have hnotin := (uniq_parts hu).1
      have hall : ∀ c, c ∈ cs → hasId c i = false := by
        intro c hc
        cases hhc : hasId c i
        · rfl
        · exact absurd (allIds_sub_of_mem cs c hc ((mem_allIds_iff c).mpr hhc)) hnotin
      rw [attachTree, if_pos rfl, attachChildren_eq,
        map_id_of_mem (fun c hc => attachTree_of_hasId_false c i (hall c hc))]
      exact AppendedAt.here nm cs col px py
    · have hlist : hasIdList cs x = true := by
        rw [hasId] at hh
        rcases Bool.or_eq_true_iff.mp hh with h1 | h1
        · exact absurd (by simpa using h1) hix
        · exact h1
      obtain ⟨cs1, c, cs2, rfl, hc, hcs1⟩ := hasIdList_split cs hlist
      have hnodup := (uniq_parts hu).2
      have hdisj := nodup_split_not_mem hnodup (mem_allIds_iff c |>.mpr hc)
      have hcs2 : ∀ d, d ∈ cs2 → hasId d x = false := by
        intro d hd
        cases hhd : hasId d x
        · rfl
        · exact absurd ((mem_allIds_iff d).mpr hhd) (hdisj.2 d hd)
      have huc : UniqueIds c :=
        uniq_of_mem _ hnodup c (List.mem_append.mpr (Or.inr (List.mem_cons_self c cs2)))
      rw [attachTree, if_neg hix, attachChildren_eq, List.map_append, List.map_cons,
        map_id_of_mem (fun d hd => attachTree_of_hasId_false d x (hcs1 d hd)),
        map_id_of_mem (fun d hd => attachTree_of_hasId_false d x (hcs2 d hd))]
      exact AppendedAt.deeper i nm col px py cs1 c (attachTree x m c) cs2
        (ih c (List.mem_append.mpr (Or.inr (List.mem_cons_self c cs2))) huc hc)

theorem exists_concat {A : Type} : ∀ l : List A, l ≠ [] → ∃ l2 a, l = l2 ++ [a] := by
  intro l
  induction l with
  | nil => intro h; exact absurd rfl h
  | cons x t ih =>
    intro _
    cases t with
    | nil => exact ⟨[], x, rfl⟩
    | cons y t2 =>
      obtain ⟨l2, a, hl⟩ := ih (by simp)
      exact ⟨x :: l2, a, by rw [List.cons_append, ← hl]⟩

theorem findNode_self : ∀ m : Node, findNode m m.id = some m := by
  intro m
  cases m with
  | mk i nm cs col px py => rw [findNode, Node.id, if_pos rfl]

theorem removeNode_id (x : String) (n : Node) : (removeNode x n).id = n.id := by
  cases n with
  | mk i nm cs col px py => rfl

theorem findNodeList_append_skip {x : String} {cs1 rest : List Node}
    (h : ∀ d, d ∈ cs1 → hasId d x = false) :
    findNodeList (cs1 ++ rest) x = findNodeList rest x := by
  induction cs1 with
  | nil => rfl
  | cons c cs ih =>
    rw [List.cons_append, findNodeList,
      findNode_eq_none_iff.mpr (h c (List.mem_cons_self c cs))]
    exact ih (fun d hd => h d (List.mem_cons.mpr (Or.inr hd)))

theorem findNodeList_uniq_aux {x : String} : ∀ cs : List Node,
    (∀ c, c ∈ cs → UniqueIds c → ∀ m, findNode c x = some m → UniqueIds m) →
    (∀ c, c ∈ cs → UniqueIds c) →
    ∀ m, findNodeList cs x = some m → UniqueIds m := by
  intro cs
  induction cs with
  | nil => intro _ _ m h; cases h
  | cons c cs ih =>
    intro hall hu m h
    rw [findNodeList] at h
    cases hfc : findNode c x with
    | some f =>
      rw [hfc] at h; cases h
      exact hall c (List.mem_cons_self c cs) (hu c (List.mem_cons_self c cs)) _ hfc
    | none =>
      rw [hfc] at h
      exact ih (fun d hd => hall d (List.mem_cons.mpr (Or.inr hd)))
        (fun d hd => hu d (List.mem_cons.mpr (Or.inr hd))) m h

theorem findNode_uniq {x : String} :
    ∀ n : Node, UniqueIds n → ∀ m, findNode n x = some m → UniqueIds m := by
  intro n
  induction n using nodeStrongInd with
  | h i nm cs col px py ih =>
    intro hu m h
    rw [findNode] at h
    by_cases hix : i = x
    · rw [if_pos hix] at h; cases h; exact hu
    · rw [if_neg hix] at h
      exact findNodeList_uniq_aux cs (fun c hc => ih c hc) (uniq_child hu) m h

/-- A small concrete editor tree used by the witnesses: root `r` with
children `a` (which has one child `b`) and `c`. -/
def wTree : Node :=
  .mk "r" "Root"
    [.mk "a" "A" [.mk "b" "B" [] false none none] false none none,
     .mk "c" "C" [] false none none] false none none

/-- A concrete state with empty history and no drag in progress. -/
def wState : EditorState := ⟨wTree, some "r", [], [], none⟩

instance (n : Node) : Decidable (UniqueIds n) :=
  inferInstanceAs (Decidable (allIds n).Nodup)

/-- Claim C3: `deleteNode(root.id)` leaves the state unchanged; on a
unique-id tree, deleting a present non-root id removes exactly the subtree
rooted at that id — every other node, every field and the order of the
remaining siblings untouched (`RemovedSub`) — and the selection becomes the
root id. -/
theorem c3_deleteNode_exact (s : EditorState) (x : String) :
    (s.tree.id = x → deleteNodeOp x s = s) ∧
    (UniqueIds s.tree → hasId s.tree x = true → s.tree.id ≠ x →
      ∃ b, b.id = x ∧ RemovedSub x b s.tree (deleteNodeOp x s).tree ∧
        (deleteNodeOp x s).selectedId = some s.tree.id) := by
  constructor
  · intro h
    rw [deleteNodeOp, if_pos h]
  · intro hu hh hroot
    obtain ⟨b, _, hbid, hrs⟩ := removeNode_removedSub s.tree hu hh hroot
    have htr : (deleteNodeOp x s).tree = removeNode x s.tree := by
      rw [deleteNodeOp, if_neg hroot]
    have hsel : (deleteNodeOp x s).selectedId = some (removeNode x s.tree).id := by
      rw [deleteNodeOp, if_neg hroot]
    exact ⟨b, hbid, htr ▸ hrs, by rw [hsel, removeNode_id]⟩

theorem c3_deleteNode_exact_witness :
    ∃ b, b.id = "a" ∧ RemovedSub "a" b wState.tree (deleteNodeOp "a" wState).tree ∧
      (deleteNodeOp "a" wState).selectedId = some wState.tree.id :=
  (c3_deleteNode_exact wState "a").2 (by decide) (by decide) (by decide)

/-- Claim C8: the layout's radius scale is `max(260, 0.42·min(w,h))`; the
polar-to-Cartesian conversion is `autoX = r·cos(angle − π/2)`,
`autoY = r·sin(angle − π/2)`, hence every node laid out at radius `r`
satisfies `autoX² + autoY² = r²`; the resolved position is the manual
override `(px, py)` when the node has one and `(autoX, autoY)` otherwise. -/
theorem c8_layout_geometry (w h mpx mpy angle r : ℝ) (d : LayoutIn) :
    radiusScale w h = max 260 (0.42 * min w h) ∧
    autoX d = d.r * Real.cos (d.angle - Real.pi / 2) ∧
    autoY d = d.r * Real.sin (d.angle - Real.pi / 2) ∧
    autoX d ^ 2 + autoY d ^ 2 = d.r ^ 2 ∧
    resolvedX ⟨some mpx, some mpy, angle, r⟩ = mpx ∧
    resolvedY ⟨some mpx, some mpy, angle, r⟩ = mpy ∧
    resolvedX ⟨none, none, angle, r⟩ = autoX ⟨none, none, angle, r⟩ ∧
    resolvedY ⟨none, none, angle, r⟩ = autoY ⟨none, none, angle, r⟩ := by
  refine ⟨by rw [radiusScale, mul_comm], rfl, rfl, ?_, rfl, rfl, rfl, rfl⟩
  rw [autoX, autoY, mul_pow, mul_pow, ← mul_add, Real.cos_sq_add_sin_sq, mul_one]

/-- Claim C9, counterexample: the source divides by `(dist || 1)`, which for
`0 < dist < 1` is the distance itself, not the claimed floor `max(dist, 1)`:
at distance 1/2 the two disagree. -/
theorem c9_cex : linkNX ⟨0, 0⟩ ⟨1/2, 0⟩ ≠ specFloorNX ⟨0, 0⟩ ⟨1/2, 0⟩ := by
  have hd : linkDist ⟨0, 0⟩ ⟨1/2, 0⟩ = 1/2 := by
    rw [linkDist]
    have he : (((⟨1/2, 0⟩ : Pt).x - (⟨0, 0⟩ : Pt).x) ^ 2 +
        ((⟨1/2, 0⟩ : Pt).y - (⟨0, 0⟩ : Pt).y) ^ 2) = ((1:ℝ)/2) ^ 2 := by
      norm_num
    rw [he, Real.sqrt_sq (by norm_num : (0:ℝ) ≤ 1/2)]
  rw [linkNX, specFloorNX, linkDenom, hd,
    if_neg (by norm_num : ¬((1:ℝ)/2 = 0)),
    max_eq_right (by norm_num : (1:ℝ)/2 ≤ 1)]
  norm_num

/-- Claim C9, amended: the connector computation never divides by zero — the
divisor is 1 exactly when the distance is 0 and the (non-zero) distance
itself otherwise; the bend is `clamp(dist·0.2, 20, 80)` and the stroke width
is `max(1.5, 4 − depth·0.4)`. -/
theorem c9_link_geometry (s t : Pt) (depth : ℕ) :
    linkDenom s t ≠ 0 ∧
    linkDenom s t = (if linkDist s t = 0 then 1 else linkDist s t) ∧
    linkNX s t = (t.x - s.x) / linkDenom s t ∧
    linkNY s t = (t.y - s.y) / linkDenom s t ∧
    linkBend s t = min 80 (max 20 (linkDist s t * 0.2)) ∧
    linkWidth depth = max 1.5 (4 - (depth : ℝ) * 0.4) := by
  refine ⟨?_, rfl, rfl, rfl, rfl, rfl⟩
  rw [linkDenom]
  by_cases hz : linkDist s t = 0
  · rw [if_pos hz]; norm_num
  · rw [if_neg hz]; exact hz

/-- Any state-changing operation of the editor, used to state the selection
invariant (C10). -/
inductive Action where
  | edit (e : Edit)
  | undo
  | redo
  | importJSON (gen : Nat → String) (k : Nat) (json : INode)
  | reset (gen : Nat → String) (k : Nat)

def applyAction (s : EditorState) : Action → Option EditorState
  | .edit e => applyEdit s e
  | .undo => some (undoOp s)
  | .redo => some (redoOp s)
  | .importJSON gen k json => some (importOp gen k json s).1
  | .reset gen k => some (resetOp gen k s).1

/-- Claim C10: after any operation that completes, once the selected-exists
effect has run, the selection names a node present in the tree; and whenever
the pre-normalisation selection is missing from the tree, it falls back to
the root's id. -/
theorem c10_selection_invariant (s s1 : EditorState) (a : Action)
    (h : applyAction s a = some s1) :
    (∃ selId m, (normalizeSel s1).selectedId = some selId ∧
        findNode (normalizeSel s1).tree selId = some m) ∧
    ((match s1.selectedId with
      | some x => findNode s1.tree x
      | none => none) = none → (normalizeSel s1).selectedId = some s1.tree.id) := by
  clear h
  constructor
  · cases hsel : s1.selectedId with
    | none =>
      have hns : normalizeSel s1 = { s1 with selectedId := some s1.tree.id } := by
        simp only [normalizeSel, hsel]
        rw [if_pos trivial]
      rw [hns]
      exact ⟨s1.tree.id, s1.tree, rfl, findNode_self s1.tree⟩
    | some x =>
      cases hf : findNode s1.tree x with
      | none =>
        have hns : normalizeSel s1 = { s1 with selectedId := some s1.tree.id } := by
          simp only [normalizeSel, hsel, hf]
          rw [if_pos trivial]
        rw [hns]
        exact ⟨s1.tree.id, s1.tree, rfl, findNode_self s1.tree⟩
      | some m =>
        have hns : normalizeSel s1 = s1 := by
          simp only [normalizeSel, hsel, hf]
          rw [if_neg (fun he => Option.noConfusion he)]
        rw [hns, hsel]
        exact ⟨x, m, rfl, hf⟩
  · intro hf
    simp only [normalizeSel]
    rw [hf, if_pos rfl]

theorem c10_selection_invariant_witness :
    (∃ selId m, (normalizeSel (toggleCollapseOp "a" wState)).selectedId = some selId ∧
        findNode (normalizeSel (toggleCollapseOp "a" wState)).tree selId = some m) ∧
    ((match (toggleCollapseOp "a" wState).selectedId with
      | some x => findNode (toggleCollapseOp "a" wState).tree x
      | none => none) = none →
      (normalizeSel (toggleCollapseOp "a" wState)).selectedId =
        some (toggleCollapseOp "a" wState).tree.id) :=
  c10_selection_invariant wState (toggleCollapseOp "a" wState)
    (Action.edit (Edit.toggleCollapse "a")) rfl

/-- Claim C7, counterexample: with an id absent from the tree, `renameNode`
still pushes an undo entry — the editor state is not left unchanged. -/
theorem c7_cex :
    hasId wState.tree "z" = false ∧
    (renameNodeOp "z" "Hi" wState).undoStack ≠ wState.undoStack := by decide

/-- Claim C7, amended: with an id absent from the tree, `addChild`,
`deleteNode`, `renameNode` and `toggleCollapse` complete without error and
leave the tree unchanged, but (from a no-drag state) each still pushes one
undo entry — a snapshot of the current state — and clears the redo stack;
`addChild` moves the selection to the missing id and `deleteNode` resets it
to the root id; `reparent` with the missing id as childId (and a different
newParentId) raises an uncaught TypeError instead of silently no-opping. -/
theorem c7_missing_id (s : EditorState) (x newId nm p : String)
    (hx : hasId s.tree x = false) :
    (addChildOp newId x s).tree = s.tree ∧
    (addChildOp newId x s).selectedId = some x ∧
    (deleteNodeOp x s).tree = s.tree ∧
    (deleteNodeOp x s).selectedId = some s.tree.id ∧
    (renameNodeOp x nm s).tree = s.tree ∧
    (renameNodeOp x nm s).selectedId = s.selectedId ∧
    (toggleCollapseOp x s).tree = s.tree ∧
    (toggleCollapseOp x s).selectedId = s.selectedId ∧
    (s.preDragSnapshot = none →
      (addChildOp newId x s).undoStack = pushTrim s.undoStack (snapshot s) ∧
      (addChildOp newId x s).redoStack = [] ∧
      (deleteNodeOp x s).undoStack = pushTrim s.undoStack (snapshot s) ∧
      (deleteNodeOp x s).redoStack = [] ∧
      (renameNodeOp x nm s).undoStack = pushTrim s.undoStack (snapshot s) ∧
      (renameNodeOp x nm s).redoStack = [] ∧
      (toggleCollapseOp x s).undoStack = pushTrim s.undoStack (snapshot s) ∧
      (toggleCollapseOp x s).redoStack = []) ∧
    (x ≠ p → reparentOp x p s = none) := by
  have hroot : s.tree.id ≠ x := id_ne_of_hasId_false hx
  have hselpre : (if s.preDragSnapshot = none then pushUndo s else s).selectedId
      = s.selectedId := by
    by_cases hp : s.preDragSnapshot = none <;> simp [hp, pushUndo]
  refine ⟨?_, rfl, ?_, ?_, ?_, hselpre, ?_, hselpre, ?_, ?_⟩
  · show attachTree x (newChildNode newId) s.tree = s.tree
    exact attachTree_of_hasId_false s.tree x hx
  · rw [deleteNodeOp, if_neg hroot]
    show removeNode x s.tree = s.tree
    exact removeNode_of_hasId_false s.tree x hx
  · rw [deleteNodeOp, if_neg hroot]
    show some (removeNode x s.tree).id = some s.tree.id
    rw [removeNode_id]
  · show renameTree x (normName nm) s.tree = s.tree
    exact renameTree_of_hasId_false s.tree x hx
  · show toggleTree x s.tree = s.tree
    exact toggleTree_of_hasId_false s.tree x hx
  · intro hpre
    rw [deleteNodeOp, if_neg hroot]
    simp [addChildOp, renameNodeOp, toggleCollapseOp, hpre, pushUndo]
  · intro hxp
    rw [reparentOp, if_neg (Ne.symm hroot), if_neg hxp,
      findNode_eq_none_iff.mpr hx]

theorem c7_missing_id_witness :
    (addChildOp "n1" "z" wState).tree = wState.tree ∧
    (addChildOp "n1" "z" wState).selectedId = some "z" ∧
    (deleteNodeOp "z" wState).tree = wState.tree ∧
    (deleteNodeOp "z" wState).selectedId = some wState.tree.id ∧
    (renameNodeOp "z" "Hi" wState).tree = wState.tree ∧
    (renameNodeOp "z" "Hi" wState).selectedId = wState.selectedId ∧
    (toggleCollapseOp "z" wState).tree = wState.tree ∧
    (toggleCollapseOp "z" wState).selectedId = wState.selectedId ∧
    (wState.preDragSnapshot = none →
      (addChildOp "n1" "z" wState).undoStack = pushTrim wState.undoStack (snapshot wState) ∧
      (addChildOp "n1" "z" wState).redoStack = [] ∧
      (deleteNodeOp "z" wState).undoStack = pushTrim wState.undoStack (snapshot wState) ∧
      (deleteNodeOp "z" wState).redoStack = [] ∧
      (renameNodeOp "z" "Hi" wState).undoStack = pushTrim wState.undoStack (snapshot wState) ∧
      (renameNodeOp "z" "Hi" wState).redoStack = [] ∧
      (toggleCollapseOp "z" wState).undoStack = pushTrim wState.undoStack (snapshot wState) ∧
      (toggleCollapseOp "z" wState).redoStack = []) ∧
    ("z" ≠ "r" → reparentOp "z" "r" wState = none) :=
  c7_missing_id wState "z" "n1" "Hi" "r" (by decide)

/-- Claim C4: with both ids present in a unique-id tree, `reparent` leaves
the whole state untouched when childId is the root, childId equals
newParentId, or newParentId lies inside childId's subtree (the source's
`isDesc` walk); in every other case it removes exactly the subtree rooted at
childId (`RemovedSub`), appends that very subtree as the last child of
newParentId (`AppendedAt`), and the selection becomes childId. -/
theorem c4_reparent_cases (s : EditorState) (c p : String)
    (hu : UniqueIds s.tree) (hc : hasId s.tree c = true) :
    ((c = s.tree.id ∨ c = p ∨
        (∃ cn, findNode s.tree c = some cn ∧ hasId cn p = true)) →
      reparentOp c p s = some s) ∧
    (hasId s.tree p = true → c ≠ s.tree.id → c ≠ p →
      (∀ cn, findNode s.tree c = some cn → hasId cn p = false) →
      ∃ s1 b, reparentOp c p s = some s1 ∧ b.id = c ∧
        RemovedSub c b s.tree (removeNode c s.tree) ∧
        AppendedAt p b (removeNode c s.tree) s1.tree ∧
        s1.selectedId = some c) := by
  constructor
  · rintro (h1 | h1 | ⟨cn, hfc, hdesc⟩)
    · rw [reparentOp, if_pos h1]
    · rw [reparentOp]
      by_cases hroot : c = s.tree.id
      · rw [if_pos hroot]
      · rw [if_neg hroot, if_pos h1]
    · by_cases hroot : c = s.tree.id
      · rw [reparentOp, if_pos hroot]
      · by_cases hcp : c = p
        · rw [reparentOp, if_neg hroot, if_pos hcp]
        · rw [reparentOp, if_neg hroot, if_neg hcp]
          simp only [hfc]
          rw [if_pos hdesc]
  · intro hp hroot hcp hdesc
    obtain ⟨cn, hfc⟩ := findNode_some_of_hasId hc
    have hdescf := hdesc cn hfc
    have hrootS : s.tree.id ≠ c := Ne.symm hroot
    obtain ⟨b, hg, hbid, hrs⟩ := removeNode_removedSub s.tree hu hc hrootS
    have hgf : grabNode c s.tree = findNode s.tree c := grabNode_eq_findNode hrootS
    have hbc : cn = b := by
      rw [hgf, hfc] at hg
      exact Option.some.inj hg
    subst hbc
    have huW : UniqueIds (removeNode c s.tree) := removedSub_uniq hrs hu
    have hpnb : p ∉ allIds cn := by
      intro hmem
      rw [mem_allIds_iff] at hmem
      rw [hmem] at hdescf
      cases hdescf
    have hpW : hasId (removeNode c s.tree) p = true := by
      rw [← mem_allIds_iff]
      exact removedSub_mem hrs p ((mem_allIds_iff _).mpr hp) hpnb
    have happ := @attachTree_appendedAt p cn (removeNode c s.tree) huW hpW
    have hrun : reparentOp c p s =
        some { (if s.preDragSnapshot = none then pushUndo s else s) with
          tree := attachTree p cn (removeNode c s.tree), selectedId := some c } := by
      rw [reparentOp, if_neg hroot, if_neg hcp]
      simp only [hfc]
      rw [if_neg (by rw [hdescf]; exact Bool.false_ne_true)]
      simp only [hg]
    exact ⟨_, cn, hrun, hbid, hrs, happ, rfl⟩

theorem c4_reparent_cases_witness :
    (("b" = wState.tree.id ∨ "b" = "c" ∨
        (∃ cn, findNode wState.tree "b" = some cn ∧ hasId cn "c" = true)) →
      reparentOp "b" "c" wState = some wState) ∧
    (hasId wState.tree "c" = true → "b" ≠ wState.tree.id → "b" ≠ "c" →
      (∀ cn, findNode wState.tree "b" = some cn → hasId cn "c" = false) →
      ∃ s1 b2, reparentOp "b" "c" wState = some s1 ∧ b2.id = "b" ∧
        RemovedSub "b" b2 wState.tree (removeNode "b" wState.tree) ∧
        AppendedAt "c" b2 (removeNode "b" wState.tree) s1.tree ∧
        s1.selectedId = some "b") :=
  c4_reparent_cases wState "b" "c" (by decide) (by decide)

theorem id_mem_allIds (n : Node) : n.id ∈ allIds n := by
  cases n with
  | mk i nm cs col px py => rw [allIds, Node.id]; exact List.mem_cons_self _ _

theorem hasId_false_of_not_mem {d : Node} {y : String} (h : y ∉ allIds d) :
    hasId d y = false := by
  cases hh : hasId d y
  · rfl
  · exact absurd ((mem_allIds_iff d).mpr hh) h

/-- Core of the C5 analysis: if `an` is the node found for id `a` and `b` is
its last child, then removing `b`'s subtree and re-appending it at `a`
reconstructs the original tree exactly; along the way, `b`'s id differs from
the root's, `findNode` locates exactly `b`, and `a` does not occur in `b`. -/
theorem reparent_last_child_main {a : String} {an b : Node} :
    ∀ n : Node, UniqueIds n → findNode n a = some an →
      ∀ cs0, an.children = cs0 ++ [b] →
      b.id ≠ n.id ∧ findNode n b.id = some b ∧ hasId b a = false ∧
      attachTree a b (removeNode b.id n) = n := by
  intro n
  induction n using nodeStrongInd with
  | h i nm cs col px py ih =>
    intro hu hfa cs0 hcs
    rw [findNode] at hfa
    by_cases hia : i = a
    · rw [if_pos hia] at hfa
      have hee := Option.some.inj hfa
      subst hee
      simp only [Node.children] at hcs
      subst hcs
      have hni := (uniq_parts hu).1
      have hnd := (uniq_parts hu).2
      have hbl : b ∈ cs0 ++ [b] :=
        List.mem_append.mpr (Or.inr (List.mem_cons_self _ _))
      have hbmem : b.id ∈ allIdsList (cs0 ++ [b]) :=
        allIds_sub_of_mem _ b hbl (id_mem_allIds b)
      have hbi : b.id ≠ Node.id (.mk i nm (cs0 ++ [b]) col px py) := by
        rw [Node.id]
        intro he
        exact hni (he ▸ hbmem)
      have hdisj := @nodup_split_not_mem cs0 [] b b.id (by simpa using hnd) (id_mem_allIds b)
      have hcs0b : ∀ d, d ∈ cs0 → hasId d b.id = false :=
        fun d hd => hasId_false_of_not_mem (hdisj.1 d hd)
      have hcs0a : ∀ d, d ∈ cs0 → hasId d a = false := by
        intro d hd
        refine hasId_false_of_not_mem (fun hmem => hni ?_)
        rw [hia]
        exact allIds_sub_of_mem _ d (List.mem_append.mpr (Or.inl hd)) hmem
      have hba : hasId b a = false := by
        refine hasId_false_of_not_mem (fun hmem => hni ?_)
        rw [hia]
        exact allIds_sub_of_mem _ b hbl hmem
      refine ⟨hbi, ?_, hba, ?_⟩
      · rw [findNode, if_neg (Ne.symm hbi ∘ (by rw [Node.id]; exact fun he => he)),
          findNodeList_append_skip hcs0b, findNodeList, findNode_self]
      · rw [removeNode, removeChildren_append, removeChildren_id cs0 hcs0b,
          removeChildren, if_pos rfl, removeChildren, List.append_nil]
        rw [attachTree, if_pos hia, attachChildren_eq,
          map_id_of_mem (fun d hd => attachTree_of_hasId_false d a (hcs0a d hd))]
    · rw [if_neg hia] at hfa
      obtain ⟨cs1, cstar, cs2, hcseq, hfstar, _⟩ := findNodeList_split cs an hfa
      subst hcseq
      have hni := (uniq_parts hu).1
      have hnd := (uniq_parts hu).2
      have hstarmem : cstar ∈ cs1 ++ cstar :: cs2 :=
        List.mem_append.mpr (Or.inr (List.mem_cons_self _ _))
      have hustar : UniqueIds cstar := uniq_of_mem _ hnd cstar hstarmem
      obtain ⟨hb1, hb2, hb3, hb4⟩ := ih cstar hstarmem hustar hfstar cs0 hcs
      have hbin : b.id ∈ allIds cstar := by
        rw [mem_allIds_iff, ← findNode_isSome, hb2]
        rfl
      have hain : a ∈ allIds cstar := by
        have hanid : an.id = a := findNode_some_id cstar an hfstar
        exact findNode_sub cstar an hfstar a (hanid ▸ id_mem_allIds an)
      have hdisjb := nodup_split_not_mem hnd hbin
      have hdisja := nodup_split_not_mem hnd hain
      have hcs1b : ∀ d, d ∈ cs1 → hasId d b.id = false :=
        fun d hd => hasId_false_of_not_mem (hdisjb.1 d hd)
      have hcs2b : ∀ d, d ∈ cs2 → hasId d b.id = false :=
        fun d hd => hasId_false_of_not_mem (hdisjb.2 d hd)
      have hcs1a : ∀ d, d ∈ cs1 → hasId d a = false :=
        fun d hd => hasId_false_of_not_mem (hdisja.1 d hd)
      have hcs2a : ∀ d, d ∈ cs2 → hasId d a = false :=
        fun d hd => hasId_false_of_not_mem (hdisja.2 d hd)
      have hbi : b.id ≠ Node.id (.mk i nm (cs1 ++ cstar :: cs2) col px py) := by
        rw [Node.id]
        intro he
        exact hni (he ▸ allIds_sub_of_mem _ cstar hstarmem hbin)
      refine ⟨hbi, ?_, hb3, ?_⟩
      · rw [findNode, if_neg (fun he => hbi (by rw [Node.id]; exact he.symm)),
          findNodeList_append_skip hcs1b, findNodeList]
        simp only [hb2]
      · have hstarid : cstar.id ≠ b.id := Ne.symm hb1
        rw [removeNode, removeChildren_append, removeChildren_id cs1 hcs1b,
          removeChildren, if_neg hstarid, removeChildren_id cs2 hcs2b]
        rw [attachTree, if_neg hia, attachChildren_eq, List.map_append, List.map_cons,
          map_id_of_mem (fun d hd => attachTree_of_hasId_false d a (hcs1a d hd)),
          map_id_of_mem (fun d hd => attachTree_of_hasId_false d a (hcs2a d hd)),
          hb4]

/-- Claim C5, counterexample: `a` is already a child of the root `r` but is
not the last child, so `reparent(a, r)` re-appends it and changes the
sibling order — it is not a no-op. -/
theorem c5_cex :
    Option.map EditorState.tree (reparentOp "a" "r" wState) ≠ some wState.tree := by
  decide

/-- Claim C5, amended: reparenting a node onto its current parent is a
remove-and-append, so the tree is unchanged precisely in the case the claim
can still make: when B is the LAST child of A, `reparent(B.id, A.id)` leaves
the tree identical (it still pushes a history entry and selects B); when B
is not the last child, the sibling order changes (see the counterexample). -/
theorem c5_reparent_last_child (s : EditorState) (a : String) (an b : Node)
    (hu : UniqueIds s.tree) (hfa : findNode s.tree a = some an)
    (hlast : an.children.getLast? = some b) :
    ∃ s1, reparentOp b.id a s = some s1 ∧ s1.tree = s.tree := by
  obtain ⟨cs0, hcs⟩ := getLast?_concat_split hlast
  obtain ⟨hbroot, hfb, hba, hattach⟩ := reparent_last_child_main s.tree hu hfa cs0 hcs
  by_cases hbida : b.id = a
  · exact ⟨s, by rw [reparentOp, if_neg hbroot, if_pos hbida], rfl⟩
  · have hrun : reparentOp b.id a s =
        some { (if s.preDragSnapshot = none then pushUndo s else s) with
          tree := attachTree a b (removeNode b.id s.tree), selectedId := some b.id } := by
      rw [reparentOp, if_neg hbroot, if_neg hbida]
      simp only [hfb]
      rw [if_neg (by rw [hba]; exact Bool.false_ne_true)]
      simp only [grabNode_eq_findNode (Ne.symm hbroot), hfb]
    refine ⟨_, hrun, ?_⟩
    show attachTree a b (removeNode b.id s.tree) = s.tree
    exact hattach

theorem c5_reparent_last_child_witness :
    ∃ s1, reparentOp (Node.mk "b" "B" [] false none none).id "a" wState = some s1 ∧
      s1.tree = wState.tree :=
  c5_reparent_last_child wState "a"
    (.mk "a" "A" [.mk "b" "B" [] false none none] false none none)
    (.mk "b" "B" [] false none none) (by decide) (by decide) (by decide)

theorem moveNodeOp_stacks (x : String) (mx my : Int) (s : EditorState) :
    (moveNodeOp x mx my s).undoStack = s.undoStack ∧
    (moveNodeOp x mx my s).redoStack = s.redoStack := by
  by_cases hp : s.preDragSnapshot = none <;> simp [moveNodeOp, hp]

theorem applyMoves_cons (m : String × Int × Int) (rest : List (String × Int × Int))
    (s : EditorState) :
    applyMoves s (m :: rest) = applyMoves (moveNodeOp m.1 m.2.1 m.2.2 s) rest := by
  rw [applyMoves, applyMoves, List.foldl_cons]

theorem applyMoves_stacks (ms : List (String × Int × Int)) : ∀ s : EditorState,
    (applyMoves s ms).undoStack = s.undoStack ∧
    (applyMoves s ms).redoStack = s.redoStack := by
  induction ms with
  | nil => intro s; exact ⟨rfl, rfl⟩
  | cons m rest ih =>
    intro s
    rw [applyMoves_cons]
    obtain ⟨h1, h2⟩ := ih (moveNodeOp m.1 m.2.1 m.2.2 s)
    obtain ⟨h3, h4⟩ := moveNodeOp_stacks m.1 m.2.1 m.2.2 s
    exact ⟨h1.trans h3, h2.trans h4⟩

theorem applyMoves_preDrag_some (ms : List (String × Int × Int)) :
    ∀ s v, s.preDragSnapshot = some v →
      (applyMoves s ms).preDragSnapshot = some v := by
  induction ms with
  | nil => intro s v h; exact h
  | cons m rest ih =>
    intro s v h
    rw [applyMoves_cons]
    exact ih _ v (by simp [moveNodeOp, h])

theorem applyMoves_preDrag (ms : List (String × Int × Int)) (hms : ms ≠ [])
    (s : EditorState) (hpre : s.preDragSnapshot = none) :
    (applyMoves s ms).preDragSnapshot = some (snapshot s) := by
  cases ms with
  | nil => exact absurd rfl hms
  | cons m rest =>
    rw [applyMoves_cons]
    exact applyMoves_preDrag_some rest _ _ (by simp [moveNodeOp, hpre])

theorem pushTrim_getLast? (st : List Snapshot) (x : Snapshot) :
    (pushTrim st x).getLast? = some x := by
  rw [pushTrim]
  by_cases h : (st ++ [x]).length > 10
  · rw [if_pos h]
    have hle : (st ++ [x]).length - 10 ≤ st.length := by
      have hlen : (st ++ [x]).length = st.length + 1 := by simp
      omega
    rw [List.drop_append_of_le_length hle, List.getLast?_concat]
  · rw [if_neg h, List.getLast?_concat]

/-- Claim C2: from a no-drag state, a drag gesture of N ≥ 1 `moveNode` calls
followed by one `moveCommit` pushes exactly one new undo entry — the
snapshot of the state before the first `moveNode`, not any intermediate
state — clears the redo stack and the captured snapshot, while the
individual `moveNode` calls never touch either history stack. -/
theorem c2_drag_single_entry (s : EditorState) (ms : List (String × Int × Int))
    (hpre : s.preDragSnapshot = none) (hms : ms ≠ []) :
    (moveCommitOp (applyMoves s ms)).undoStack = pushTrim s.undoStack (snapshot s) ∧
    (moveCommitOp (applyMoves s ms)).undoStack.getLast? = some (snapshot s) ∧
    (moveCommitOp (applyMoves s ms)).redoStack = [] ∧
    (moveCommitOp (applyMoves s ms)).preDragSnapshot = none ∧
    (∀ ms2, (applyMoves s ms2).undoStack = s.undoStack ∧
      (applyMoves s ms2).redoStack = s.redoStack) := by
  have hpd := applyMoves_preDrag ms hms s hpre
  have hst := applyMoves_stacks ms s
  have hrun : moveCommitOp (applyMoves s ms) =
      { applyMoves s ms with
        undoStack := pushTrim (applyMoves s ms).undoStack (snapshot s),
        redoStack := [], preDragSnapshot := none } := by
    rw [moveCommitOp]
    simp only [hpd]
  rw [hrun]
  exact ⟨by rw [hst.1], by rw [hst.1, pushTrim_getLast?], rfl, rfl,
    fun ms2 => applyMoves_stacks ms2 s⟩

theorem c2_drag_single_entry_witness :
    (moveCommitOp (applyMoves wState [("a", 5, 6)])).undoStack =
      pushTrim wState.undoStack (snapshot wState) ∧
    (moveCommitOp (applyMoves wState [("a", 5, 6)])).undoStack.getLast? =
      some (snapshot wState) ∧
    (moveCommitOp (applyMoves wState [("a", 5, 6)])).redoStack = [] ∧
    (moveCommitOp (applyMoves wState [("a", 5, 6)])).preDragSnapshot = none ∧
    (∀ ms2, (applyMoves wState ms2).undoStack = wState.undoStack ∧
      (applyMoves wState ms2).redoStack = wState.redoStack) :=
  c2_drag_single_entry wState [("a", 5, 6)] rfl (by decide)

theorem pushTrim_length (st : List Snapshot) (x : Snapshot) :
    (pushTrim st x).length = min (st.length + 1) 10 := by
  rw [pushTrim]
  have hlen : (st ++ [x]).length = st.length + 1 := by simp
  by_cases h : (st ++ [x]).length > 10
  · rw [if_pos h, List.length_drop]
    omega
  · rw [if_neg h]
    omega

theorem undoOp_eq (s : EditorState) {U : List Snapshot} {last : Snapshot}
    (h : s.undoStack = U ++ [last]) :
    undoOp s = { tree := last.1, selectedId := last.2, undoStack := U,
                 redoStack := s.redoStack ++ [snapshot s],
                 preDragSnapshot := s.preDragSnapshot } := by
  rw [undoOp, h]
  simp only [List.getLast?_concat, List.dropLast_concat]

theorem redo_undo (s : EditorState) (h : s.undoStack ≠ []) :
    redoOp (undoOp s) = s := by
  obtain ⟨U, last, hU⟩ := exists_concat _ h
  rw [undoOp_eq s hU, redoOp]
  simp only [List.getLast?_concat, List.dropLast_concat, snapshot]
  rw [← hU]

theorem redoN_shift (k : Nat) : ∀ s, redoN (k + 1) s = redoOp (redoN k s) := by
  induction k with
  | zero => intro s; rfl
  | succ k ih =>
    intro s
    have h1 : redoN (k + 1 + 1) s = redoN (k + 1) (redoOp s) := rfl
    have h2 : redoN (k + 1) s = redoN k (redoOp s) := rfl
    rw [h1, ih (redoOp s), h2]

theorem undoOp_stack_len (s : EditorState) (h : s.undoStack ≠ []) :
    (undoOp s).undoStack.length = s.undoStack.length - 1 := by
  obtain ⟨U, last, hU⟩ := exists_concat _ h
  rw [undoOp_eq s hU, hU]
  simp

/-- k undos followed by k redos restore the full editor state exactly, as
long as the undo stack holds at least k entries. -/
theorem redoN_undoN (k : Nat) : ∀ s : EditorState, k ≤ s.undoStack.length →
    redoN k (undoN k s) = s := by
  induction k with
  | zero => intro s _; rfl
  | succ k ih =>
    intro s hk
    have hne : s.undoStack ≠ [] := by
      intro he
      rw [he] at hk
      simp at hk
    have h1 : undoN (k + 1) s = undoN k (undoOp s) := rfl
    rw [h1, redoN_shift, ih (undoOp s) (by rw [undoOp_stack_len s hne]; omega),
      redo_undo s hne]

/-- Each accepted edit, from a no-drag state, completes, leaves no drag in
progress, and grows the undo stack to `min (old + 1) 10`. -/
theorem accepted_step (s : EditorState) (e : Edit) (hpre : s.preDragSnapshot = none)
    (ha : accepted s e = true) :
    ∃ s1, applyEdit s e = some s1 ∧ s1.preDragSnapshot = none ∧
      s1.undoStack.length = min (s.undoStack.length + 1) 10 := by
  cases e with
  | addChild nid pid =>
    refine ⟨addChildOp nid pid s, rfl, ?_, ?_⟩
    · simp [addChildOp, hpre, pushUndo]
    · simp [addChildOp, hpre, pushUndo, pushTrim_length]
  | deleteNode x =>
    have hne : s.tree.id ≠ x := by simpa [accepted] using ha
    refine ⟨deleteNodeOp x s, rfl, ?_, ?_⟩
    · simp [deleteNodeOp, hne, hpre, pushUndo]
    · simp [deleteNodeOp, hne, hpre, pushUndo, pushTrim_length]
  | renameNode x nm =>
    refine ⟨renameNodeOp x nm s, rfl, ?_, ?_⟩
    · simp [renameNodeOp, hpre, pushUndo]
    · simp [renameNodeOp, hpre, pushUndo, pushTrim_length]
  | toggleCollapse x =>
    refine ⟨toggleCollapseOp x s, rfl, ?_, ?_⟩
    · simp [toggleCollapseOp, hpre, pushUndo]
    · simp [toggleCollapseOp, hpre, pushUndo, pushTrim_length]
  | reparent c p =>
    rw [accepted] at ha
    obtain ⟨hb12, hb3⟩ := Bool.and_eq_true_iff.mp ha
    obtain ⟨hb1, hb2⟩ := Bool.and_eq_true_iff.mp hb12
    have hc1 : ¬(c = s.tree.id) := by simpa using hb1
    have hc2 : ¬(c = p) := by simpa using hb2
    cases hf : findNode s.tree c with
    | none =>
      rw [hf] at hb3
      exact Bool.noConfusion hb3
    | some cn =>
      simp only [hf] at hb3
      have hcn : hasId cn p = false := by simpa using hb3
      cases hg : grabNode c s.tree with
      | none =>
        refine ⟨pushUndo s, ?_, ?_, ?_⟩
        · show reparentOp c p s = some (pushUndo s)
          rw [reparentOp, if_neg hc1, if_neg hc2]
          simp only [hf]
          rw [if_neg (by rw [hcn]; exact Bool.false_ne_true)]
          simp only [hg, hpre, if_pos]
        · simp [pushUndo, hpre]
        · simp [pushUndo, pushTrim_length]
      | some m =>
        refine ⟨{ pushUndo s with
            tree := attachTree p m (removeNode c s.tree),
            selectedId := some c }, ?_, ?_, ?_⟩
        · show reparentOp c p s = some _
          rw [reparentOp, if_neg hc1, if_neg hc2]
          simp only [hf]
          rw [if_neg (by rw [hcn]; exact Bool.false_ne_true)]
          simp only [hg, hpre, if_pos]
        · simp [pushUndo, hpre]
        · simp [pushUndo, pushTrim_length]
  | drag ms =>
    have hms : ms ≠ [] := by
      cases ms with
      | nil => rw [accepted] at ha; cases ha
      | cons m rest => exact fun he => List.noConfusion he
    have hpd := applyMoves_preDrag ms hms s hpre
    have hst := applyMoves_stacks ms s
    have hrun : moveCommitOp (applyMoves s ms) =
        { applyMoves s ms with
          undoStack := pushTrim (applyMoves s ms).undoStack (snapshot s),
          redoStack := [], preDragSnapshot := none } := by
      rw [moveCommitOp]
      simp only [hpd]
    refine ⟨moveCommitOp (applyMoves s ms), rfl, ?_, ?_⟩
    · rw [hrun]
    · rw [hrun]
      show (pushTrim (applyMoves s ms).undoStack (snapshot s)).length = _
      rw [hst.1, pushTrim_length]

theorem acceptedSeq_run : ∀ (es : List Edit) (s : EditorState),
    s.preDragSnapshot = none → acceptedSeq s es = true →
    ∃ r, applyEdits s es = some r ∧ r.preDragSnapshot = none ∧
      min (s.undoStack.length + es.length) 10 ≤ r.undoStack.length := by
  intro es
  induction es with
  | nil =>
    intro s hpre _
    exact ⟨s, rfl, hpre, by simp⟩
  | cons e es ih =>
    intro s hpre hacc
    rw [acceptedSeq] at hacc
    obtain ⟨ha, hrest⟩ := Bool.and_eq_true_iff.mp hacc
    obtain ⟨s1, hs1, hpre1, hlen1⟩ := accepted_step s e hpre ha
    rw [hs1] at hrest
    have hrest2 : acceptedSeq s1 es = true := hrest
    obtain ⟨r, hr, hprer, hlenr⟩ := ih s1 hpre1 hrest2
    refine ⟨r, ?_, hprer, ?_⟩
    · rw [applyEdits]
      simp only [hs1]
      exact hr
    · have hlc : (e :: es).length = es.length + 1 := rfl
      omega

/-- Claim C1, amended: if no drag is in progress and every edit in E1..Ek is
accepted (not discarded by an early return — i.e. each pushes one history
entry), then with k ≤ 10 applying undo k times and then redo k times
restores the entire editor state (in particular tree and selection) to its
state after Ek. -/
theorem c1_undo_redo_inverse (s r : EditorState) (es : List Edit)
    (hpre : s.preDragSnapshot = none) (hacc : acceptedSeq s es = true)
    (hk : es.length ≤ 10) (hr : applyEdits s es = some r) :
    redoN es.length (undoN es.length r) = r := by
  obtain ⟨r2, hr2, _, hlen⟩ := acceptedSeq_run es s hpre hacc
  rw [hr] at hr2
  cases Option.some.inj hr2
  exact redoN_undoN es.length r (by omega)

theorem c1_undo_redo_inverse_witness :
    wState.preDragSnapshot = none ∧
    acceptedSeq wState [Edit.addChild "n1" "r"] = true ∧
    [Edit.addChild "n1" "r"].length ≤ 10 ∧
    applyEdits wState [Edit.addChild "n1" "r"] = some (addChildOp "n1" "r" wState) ∧
    redoN 1 (undoN 1 (addChildOp "n1" "r" wState)) = addChildOp "n1" "r" wState :=
  ⟨rfl, by decide, by decide, rfl,
   c1_undo_redo_inverse wState (addChildOp "n1" "r" wState) [Edit.addChild "n1" "r"]
     rfl (by decide) (by decide) rfl⟩

/-- A reachable state (add a child, then undo it) with an empty undo stack
and a stale entry on the redo stack. -/
def c1CexState : EditorState :=
  ⟨.mk "r" "Root" [] false none none, some "r", [],
   [(.mk "r" "Root" [.mk "q" "Q" [] false none none] false none none, some "r")], none⟩

/-- Claim C1, counterexample: `deleteNode(root.id)` is one of the allowed
edits but is a silent no-op that pushes nothing; starting from a state with
an empty undo stack and a non-empty redo stack, undo is a no-op and redo
then fires on the stale redo entry, so undo¹ then redo¹ does not restore
the tree after E1. -/
theorem c1_cex :
    applyEdits c1CexState [Edit.deleteNode "r"] = some c1CexState ∧
    (redoN 1 (undoN 1 c1CexState)).tree ≠ c1CexState.tree := by decide

/-- Strong induction over the import-JSON tree type. -/
theorem inodeStrongInd (P : INode → Prop)
    (h : ∀ i nm cs col px py, (∀ c, c ∈ cs → P c) → P (.mk i nm cs col px py)) :
    ∀ n, P n
  | .mk i nm cs col px py =>
    h i nm cs col px py (fun c hc => inodeStrongInd P h c)
termination_by n => sizeOf n
decreasing_by
  have h1 := List.sizeOf_lt_of_mem hc
  simp only [INode.mk.sizeOf_spec]
  omega

theorem assignIds_none_eq (gen : Nat → String) (nm0 : Option String)
    (cs0 : List INode) (k : Nat) :
    assignIds gen (.mk none nm0 cs0 false none none) k =
      (.mk (gen k) (nm0.getD "Node") (assignIdsList gen cs0 (k + 1)).1 false none none,
       (assignIdsList gen cs0 (k + 1)).2) := rfl

theorem addIds_eq (gen : Nat → String) (i0 : Option String) (nm0 : Option String)
    (cs0 : List INode) (col0 : Bool) (px0 py0 : Option Int) (k : Nat) :
    addIds gen (.mk i0 nm0 cs0 col0 px0 py0) k =
      (.mk (gen k) (nm0.getD "Node")
         (addIdsList gen cs0 (assignIdsList gen cs0 (k + 1)).2).1 false
         (match px0, py0 with | some a, some _ => some a | _, _ => none)
         (match px0, py0 with | some _, some b2 => some b2 | _, _ => none),
       (addIdsList gen cs0 (assignIdsList gen cs0 (k + 1)).2).2) := by
  cases px0 <;> cases py0 <;> rfl

theorem sameShapeList_aux (gen : Nat → String) : ∀ cs : List Node,
    (∀ c, c ∈ cs → ∀ k, SameShape c (addIds gen (exportStrip c) k).1) →
    ∀ k, SameShapeList cs (addIdsList gen (exportStripList cs) k).1 := by
  intro cs
  induction cs with
  | nil => intro _ _; exact SameShapeList.nil
  | cons c cs ih =>
    intro hall k
    show SameShapeList (c :: cs)
      ((addIds gen (exportStrip c) k).1 ::
        (addIdsList gen (exportStripList cs) (addIds gen (exportStrip c) k).2).1)
    exact SameShapeList.cons _ _ _ _
      (hall c (List.mem_cons_self c cs) k)
      (ih (fun d hd => hall d (List.mem_cons.mpr (Or.inr hd))) _)

/-- Re-importing an exported tree preserves the name at every node, the
children structure and order, and the px/py override wherever both are
present. -/
theorem sameShape_roundtrip (gen : Nat → String) :
    ∀ t : Node, ∀ k, SameShape t (addIds gen (exportStrip t) k).1 := by
  intro t
  induction t using nodeStrongInd with
  | h i nm cs col px py ih =>
    intro k
    have hlist := sameShapeList_aux gen cs (fun c hc => ih c hc)
    cases px with
    | none =>
      cases py with
      | none =>
        rw [show exportStrip (.mk i nm cs col none none) =
          .mk none (some nm) (exportStripList cs) false none none from rfl, addIds_eq]
        exact SameShape.mk i nm cs col none none _ _ _ _
          (fun a b2 ha _ => Option.noConfusion ha) _ (hlist _)
      | some b2 =>
        rw [show exportStrip (.mk i nm cs col none (some b2)) =
          .mk none (some nm) (exportStripList cs) false none none from rfl, addIds_eq]
        exact SameShape.mk i nm cs col none (some b2) _ _ _ _
          (fun a b3 ha _ => Option.noConfusion ha) _ (hlist _)
    | some a =>
      cases py with
      | none =>
        rw [show exportStrip (.mk i nm cs col (some a) none) =
          .mk none (some nm) (exportStripList cs) false none none from rfl, addIds_eq]
        exact SameShape.mk i nm cs col (some a) none _ _ _ _
          (fun a2 b2 _ hb => Option.noConfusion hb) _ (hlist _)
      | some b2 =>
        rw [show exportStrip (.mk i nm cs col (some a) (some b2)) =
          .mk none (some nm) (exportStripList cs) false (some a) (some b2) from rfl, addIds_eq]
        refine SameShape.mk i nm cs col (some a) (some b2) _ _ _ _ ?_ _ (hlist _)
        intro a2 b3 ha hb
        cases ha
        cases hb
        exact ⟨rfl, rfl⟩

theorem addIdsList_ids_gen_aux (gen : Nat → String) : ∀ cs : List INode,
    (∀ c, c ∈ cs → ∀ k y, y ∈ allIds (addIds gen c k).1 → ∃ j, y = gen j) →
    ∀ k y, y ∈ allIdsList (addIdsList gen cs k).1 → ∃ j, y = gen j := by
  intro cs
  induction cs with
  | nil => intro _ k y hy; cases hy
  | cons c cs ih =>
    intro hall k y hy
    have hsh : (addIdsList gen (c :: cs) k).1 =
        (addIds gen c k).1 :: (addIdsList gen cs (addIds gen c k).2).1 := rfl
    rw [hsh, allIdsList, List.mem_append] at hy
    rcases hy with hy | hy
    · exact hall c (List.mem_cons_self c cs) k y hy
    · exact ih (fun d hd => hall d (List.mem_cons.mpr (Or.inr hd))) _ y hy

/-- Every id in an imported tree comes from the fresh-id generator — never
from the input JSON, whatever id fields that carried. -/
theorem addIds_ids_gen (gen : Nat → String) :
    ∀ (n : INode) (k : Nat) (y : String),
      y ∈ allIds (addIds gen n k).1 → ∃ j, y = gen j := by
  intro n
  induction n using inodeStrongInd with
  | h i0 nm0 cs0 col0 px0 py0 ih =>
    intro k y hy
    rw [addIds_eq, allIds, List.mem_cons] at hy
    rcases hy with rfl | hy
    · exact ⟨k, rfl⟩
    · exact addIdsList_ids_gen_aux gen cs0 (fun c hc => ih c hc) _ y hy

/-- Claim C6: importing the JSON produced by exporting a tree yields, modulo
regenerated ids, the same name at every node, the same children structure
and order, and the same px/py wherever both were present; the imported ids
are all freshly generated (never taken from the input), and the undo and
redo stacks are reset to empty. -/
theorem c6_export_import_roundtrip (gen : Nat → String) (t : Node) (k : Nat)
    (json : INode) (s : EditorState) :
    SameShape t (addIds gen (exportStrip t) k).1 ∧
    (∀ y, y ∈ allIds (addIds gen json k).1 → ∃ j, y = gen j) ∧
    (importOp gen k json s).1.undoStack = [] ∧
    (importOp gen k json s).1.redoStack = [] ∧
    (importOp gen k json s).1.tree = (addIds gen json k).1 ∧
    (importOp gen k json s).1.selectedId = some (addIds gen json k).1.id :=
  ⟨sameShape_roundtrip gen t k, fun y => addIds_ids_gen gen json k y,
   rfl, rfl, rfl, rfl⟩

/-- A concrete fresh-id generator for the witness. -/
def wGen : Nat → String := fun j => "g" ++ toString j

theorem c6_export_import_roundtrip_witness :
    SameShape wTree (addIds wGen (exportStrip wTree) 0).1 ∧
    (∃ j, "g0" = wGen j) ∧
    (importOp wGen 0 (exportStrip wTree) wState).1.undoStack = [] ∧
    (importOp wGen 0 (exportStrip wTree) wState).1.redoStack = [] :=
  have hmain := c6_export_import_roundtrip wGen wTree 0 (exportStrip wTree) wState
  ⟨hmain.1, hmain.2.1 "g0" (by decide), hmain.2.2.1, hmain.2.2.2.1⟩
